import Mathlib

/-!
Verification development for the lem-in core pipeline
(route discovery, ant scheduling, turn simulation).

The definitions below are a shallow embedding of the Go sources:

* src/graph/graph.go        — BuildGraph, FindMultiplePaths, bfs,
                              removePathEdges, removeEdge
* src/scheduling/scheduling.go — AssignAnts
* src/simulation/simulation.go — initSimulation, isRoomOccupied,
                              processTurn, SimulateMultiPath

Go maps are modelled as association lists (first-match lookup,
replace-first-match update), Go slices as lists, Go int as Int.
Loops that Go runs by mutation are modelled as structural recursions
threading the mutated state.
-/

set_option maxHeartbeats 1000000

namespace LemIn

/-! ## Data model (src/structs/structs.go) -/

/-- Room mirrors structs.Room: a name, coordinates and start/end flags. -/
structure Room where
  name : String
  x : Int := 0
  y : Int := 0
  isStart : Bool := false
  isEnd : Bool := false
deriving Repr, DecidableEq

/-- The Neighbors field of structs.Graph: map from room name to the ordered
list of adjacent room names, modelled as an association list. -/
abbrev Conns := List (String × List String)

/-- Graph mirrors structs.Graph.  The Rooms map is kept as the list of rooms
(the map is only ever scanned, never indexed, by the route finder). -/
structure Graph where
  rooms : List Room
  neighbors : Conns
deriving Repr, DecidableEq

/-- First-match lookup in an association list, with the Go map default
(the empty list) when the key is absent. -/
def lookupD : Conns → String → List String
  | [], _ => []
  | (k', v) :: rest, k => if k' = k then v else lookupD rest k

/-- Go map assignment: replace the value at the first entry holding the key,
or append a fresh entry when the key is absent. -/
def alSet : Conns → String → List String → Conns
  | [], k, v => [(k, v)]
  | (k', v') :: rest, k, v =>
    if k' = k then (k, v) :: rest else (k', v') :: alSet rest k v

/-! ## Scheduler (src/scheduling/scheduling.go, AssignAnts) -/

/-- The local pathCost record of AssignAnts: a route index and its
effective cost. -/
structure PathCost where
  index : Nat
  cost : Int
deriving Repr, DecidableEq

/-- One step of the insertion sort that sort.Slice performs on short slices:
insert x after every element whose cost is not greater (a stable insert for
the comparator "cost a less than cost b"). -/
def insertPC (x : PathCost) : List PathCost → List PathCost
  | [] => [x]
  | y :: ys => if x.cost < y.cost then x :: y :: ys else y :: insertPC x ys

/-- The sort model used for cost slices of at most twelve elements:
sort.Slice dispatches such slices to the insertion sort of pdqsort, which
is stable, and the fold below is that stable insertion sort (the agreement
is proven in sortSliceGo_le12 against the full sort.Slice embedding
sortSliceGo defined later).  Slices of thirteen or more elements run the
rest of pdqsort, which is not stable, so this model is only ever relied on
under that length bound. -/
def sortSlice (l : List PathCost) : List PathCost :=
  l.foldl (fun acc x => insertPC x acc) []

/-- The pathCosts slice built by AssignAnts for one ant:
cost j = length of path j + ants already assigned to path j - 1. -/
def costsOf (paths : List (List String)) (antsPerPath : List Int) : List PathCost :=
  (List.range paths.length).map
    (fun j => ⟨j, ((paths.getD j []).length : Int) + antsPerPath.getD j 0 - 1⟩)

/-- The body of the per-ant loop of AssignAnts: build the cost slice, sort
it, and increment the allocation of the front (cheapest) path. -/
def assignOne (paths : List (List String)) (antsPerPath : List Int) : List Int :=
  match (sortSlice (costsOf paths antsPerPath)).head? with
  | some pc => antsPerPath.set pc.index (antsPerPath.getD pc.index 0 + 1)
  | none => antsPerPath

/-- The per-ant loop of AssignAnts, one iteration per ant. -/
def assignLoop (paths : List (List String)) : Nat → List Int → List Int
  | 0, alloc => alloc
  | n + 1, alloc => assignLoop paths n (assignOne paths alloc)

/-- PathAssignment mirrors structs.PathAssignment. -/
structure PathAssignment where
  paths : List (List String)
  antsPerPath : List Int
deriving Repr, DecidableEq

/-- AssignAnts from src/scheduling/scheduling.go: distribute antCount ants
across the paths greedily; the allocation starts at all zeros
(Go: make([]int, numPaths)).  A non-positive ant count runs the loop zero
times, as in Go. -/
def AssignAnts (antCount : Int) (paths : List (List String)) : PathAssignment :=
  ⟨paths, assignLoop paths antCount.toNat (List.replicate paths.length 0)⟩

/-! ## Scheduler modelled from the spec (for the refinement claim)

The spec (section 4.3) says: compute cost r = length r + assignedSoFar r - 1
for every route, select the route with the minimum cost, and on ties select
the route with the smallest index in the input route list. -/

/-- Modelled from the spec: the effective cost of route j under the current
allocation. -/
def specCost (paths : List (List String)) (alloc : List Int) (j : Nat) : Int :=
  ((paths.getD j []).length : Int) + alloc.getD j 0 - 1

/-- Modelled from the spec: the minimum of a list of costs (headD duplicates
the head so that the fold returns the minimum of a nonempty list). -/
def specMin (costs : List Int) : Int :=
  costs.foldl min (costs.headD 0)

/-- Modelled from the spec: the position of the first occurrence of a value,
used to break cost ties by the smallest route index. -/
def firstIdxOf (v : Int) : List Int → Nat
  | [] => 0
  | c :: cs => if c = v then 0 else firstIdxOf v cs + 1

/-- Modelled from the spec: the chosen route for the next token is the one
with minimum cost, and on ties the one with the smallest index. -/
def specPick (paths : List (List String)) (alloc : List Int) : Nat :=
  let costs := (List.range paths.length).map (specCost paths alloc)
  firstIdxOf (specMin costs) costs

/-- Modelled from the spec: assign one token to the picked route. -/
def specAssignOne (paths : List (List String)) (alloc : List Int) : List Int :=
  let j := specPick paths alloc
  alloc.set j (alloc.getD j 0 + 1)

/-- Modelled from the spec: assign each token in sequence. -/
def specAssignLoop (paths : List (List String)) : Nat → List Int → List Int
  | 0, alloc => alloc
  | n + 1, alloc => specAssignLoop paths n (specAssignOne paths alloc)

/-- Modelled from the spec: the whole scheduler contract of section 4.3. -/
def AssignAntsSpec (antCount : Int) (paths : List (List String)) : PathAssignment :=
  ⟨paths, specAssignLoop paths antCount.toNat (List.replicate paths.length 0)⟩

/-- Proof auxiliary: the running minimum (keeping the earlier element on
ties) that the head of the stable insertion sort computes. -/
def minFoldStep (m : Option PathCost) (x : PathCost) : Option PathCost :=
  match m with
  | none => some x
  | some y => some (if x.cost < y.cost then x else y)

/-! ## The sort.Slice implementation of the Go standard library
(sort/zsortfunc.go, Go 1.19 and later): pdqsort over an index/swap view of
the slice.  Slices of at most twelve elements go straight to insertion
sort; longer slices run the full pattern-defeating quicksort, which is not
stable.  Every unbounded Go loop below carries a fuel argument; one unit
pays for one loop iteration or recursive call, and every iteration
strictly shrinks its index range, so the canonical fuel passed by
sortSliceGo (one more than the slice length) always suffices.  The
theorems below only ever evaluate concrete runs or the short-slice
branch, so no general fuel-sufficiency lemma is needed. -/

/-- Default element for out-of-range index reads; the algorithm only ever
touches indices inside the slice, so the default is never consulted on the
runs the theorems evaluate. -/
def pcD : PathCost := ⟨0, 0⟩

/-- The less closure AssignAnts hands to sort.Slice: compare the cost
fields at two indices. -/
def lessPC (l : List PathCost) (i j : Nat) : Bool :=
  decide ((l.getD i pcD).cost < (l.getD j pcD).cost)

/-- The reflect-based swap closure of sort.Slice: exchange the elements at
two indices. -/
def swapPC (l : List PathCost) (i j : Nat) : List PathCost :=
  (l.set i (l.getD j pcD)).set j (l.getD i pcD)

/-- The inner shift loop of insertionSort_func: while the scan index sits
above a and its element is less than the left neighbor, swap the two and
step left.  The first argument is a, the second the scan index j. -/
def insBubble (a : Nat) : Nat → List PathCost → List PathCost
  | 0, l => l
  | j + 1, l =>
    if a < j + 1 && lessPC l (j + 1) j then insBubble a j (swapPC l (j + 1) j)
    else l

/-- The outer loop of insertionSort_func: the loop index i starts at a+1;
the extra counter holds the remaining number of iterations. -/
def insLoopGo (a : Nat) : Nat → Nat → List PathCost → List PathCost
  | _, 0, l => l
  | i, k + 1, l => insLoopGo a (i + 1) k (insBubble a i l)

/-- insertionSort_func from zsortfunc.go: sort the index range from a
(inclusive) to b (exclusive) by insertion. -/
def insertionSortGo (l : List PathCost) (a b : Nat) : List PathCost :=
  insLoopGo a (a + 1) (b - (a + 1)) l

/-- siftDown_func from zsortfunc.go: restore the max-heap property below
root inside the heap of size hi that starts at offset first.  The loop at
least doubles root each iteration, so fuel hi suffices. -/
def siftDownGo : Nat → List PathCost → Nat → Nat → Nat → List PathCost
  | 0, l, _, _, _ => l
  | fuel + 1, l, root, hi, first =>
    if 2 * root + 1 ≥ hi then l
    else
      let child :=
        if 2 * root + 2 < hi && lessPC l (first + 2 * root + 1) (first + 2 * root + 2)
        then 2 * root + 2 else 2 * root + 1
      if !(lessPC l (first + root) (first + child)) then l
      else siftDownGo fuel (swapPC l (first + root) (first + child)) child hi first

/-- The heap construction loop of heapSort_func: siftDown at every index
from (hi-1)/2 down to 0; the counter is one more than the loop index. -/
def heapBuildGo (hi first : Nat) : Nat → List PathCost → List PathCost
  | 0, l => l
  | c + 1, l => heapBuildGo hi first c (siftDownGo hi l c hi first)

/-- The pop loop of heapSort_func: swap the greatest element to the end of
the shrinking heap and siftDown the new root; the counter is one more than
the loop index. -/
def heapPopGo (first : Nat) : Nat → List PathCost → List PathCost
  | 0, l => l
  | c + 1, l => heapPopGo first c (siftDownGo (c + 1) (swapPC l first (first + c)) 0 c first)

/-- heapSort_func from zsortfunc.go, the fallback of pdqsort after too many
unbalanced pivot choices. -/
def heapSortGo (l : List PathCost) (a b : Nat) : List PathCost :=
  heapPopGo a (b - a) (heapBuildGo (b - a) a ((b - a - 1) / 2 + 1) l)

/-- bits.Len on the unsigned value n: the number of bits needed to
represent n, zero for zero.  The fuel argument of the helper only needs to
be at least the bit length, so n+1 always suffices. -/
def bitsLenAux : Nat → Nat → Nat
  | 0, _ => 0
  | fuel + 1, n => if n = 0 then 0 else bitsLenAux fuel (n / 2) + 1

/-- bits.Len from the math/bits package, used for the pdqsort depth limit
and for nextPowerOfTwo. -/
def bitsLen (n : Nat) : Nat := bitsLenAux (n + 1) n

/-- One step of the xorshift pseudo-random generator of zsortfunc.go: a
64-bit xorshift with shift amounts 13, 7 (right) and 17. -/
def xorshiftNext (r : Nat) : Nat :=
  let r1 := (r ^^^ ((r <<< 13) % 2 ^ 64)) % 2 ^ 64
  let r2 := r1 ^^^ (r1 >>> 7)
  (r2 ^^^ ((r2 <<< 17) % 2 ^ 64)) % 2 ^ 64

/-- breakPatterns_func from zsortfunc.go: scatter three elements near the
middle of the range to random positions, seeding the generator with the
range length; the bitmask with nextPowerOfTwo minus one is written as that
mask.  The three loop iterations are unrolled. -/
def breakPatternsGo (l : List PathCost) (a b : Nat) : List PathCost :=
  let len := b - a
  if len ≥ 8 then
    let modulus := 1 <<< bitsLen len
    let idx := a + (len / 4) * 2 - 1
    let r1 := xorshiftNext len
    let o1 := if r1 &&& (modulus - 1) ≥ len then r1 &&& (modulus - 1) - len
      else r1 &&& (modulus - 1)
    let l1 := swapPC l (idx - 1) (a + o1)
    let r2 := xorshiftNext r1
    let o2 := if r2 &&& (modulus - 1) ≥ len then r2 &&& (modulus - 1) - len
      else r2 &&& (modulus - 1)
    let l2 := swapPC l1 idx (a + o2)
    let r3 := xorshiftNext r2
    let o3 := if r3 &&& (modulus - 1) ≥ len then r3 &&& (modulus - 1) - len
      else r3 &&& (modulus - 1)
    swapPC l2 (idx + 1) (a + o3)
  else l

/-- The sortedHint values of zsortfunc.go. -/
inductive SortedHint where
  | unknownHint
  | increasingHint
  | decreasingHint
deriving Repr, DecidableEq

/-- The switch on the comparison-swap count at the end of choosePivot_func:
zero swaps hint an increasing slice, the maximum (twelve) a decreasing
one. -/
def hintOf (swaps : Nat) : SortedHint :=
  if swaps = 0 then .increasingHint
  else if swaps = 12 then .decreasingHint
  else .unknownHint

/-- order2_func from zsortfunc.go: order two indices by their elements,
counting a swap; no data is moved. -/
def order2Go (l : List PathCost) (a b swaps : Nat) : Nat × Nat × Nat :=
  if lessPC l b a then (b, a, swaps + 1) else (a, b, swaps)

/-- median_func from zsortfunc.go: the index holding the median of three,
with the running swap count. -/
def medianGo (l : List PathCost) (a b c swaps : Nat) : Nat × Nat :=
  let r1 := order2Go l a b swaps
  let r2 := order2Go l r1.2.1 c r1.2.2
  let r3 := order2Go l r1.1 r2.1 r2.2.2
  (r3.2.1, r3.2.2)

/-- medianAdjacent_func from zsortfunc.go: the median of an index and its
two neighbors. -/
def medianAdjacentGo (l : List PathCost) (a swaps : Nat) : Nat × Nat :=
  medianGo l (a - 1) a (a + 1) swaps

/-- choosePivot_func from zsortfunc.go: a static pivot below eight
elements, median of three up to forty-nine, Tukey ninther beyond. -/
def choosePivotGo (l : List PathCost) (a b : Nat) : Nat × SortedHint :=
  let len := b - a
  let i := a + len / 4 * 1
  let j := a + len / 4 * 2
  let k := a + len / 4 * 3
  if len ≥ 8 then
    if len ≥ 50 then
      let mi := medianAdjacentGo l i 0
      let mj := medianAdjacentGo l j mi.2
      let mk := medianAdjacentGo l k mj.2
      let m := medianGo l mi.1 mj.1 mk.1 mk.2
      (m.1, hintOf m.2)
    else
      let m := medianGo l i j k 0
      (m.1, hintOf m.2)
  else (j, hintOf 0)

/-- reverseRange_func from zsortfunc.go: reverse the index range by
swapping ends inward; fuel b - a suffices. -/
def reverseRangeGo : Nat → List PathCost → Nat → Nat → List PathCost
  | 0, l, _, _ => l
  | fuel + 1, l, i, j =>
    if i < j then reverseRangeGo fuel (swapPC l i j) (i + 1) (j - 1) else l

/-- The advance scan of partialInsertionSort_func: move i right while the
element at i is not less than its left neighbor. -/
def scanRightGo (b : Nat) : Nat → Nat → List PathCost → Nat
  | 0, i, _ => i
  | fuel + 1, i, l =>
    if i < b && !(lessPC l i (i - 1)) then scanRightGo b fuel (i + 1) l else i

/-- The left shift of partialInsertionSort_func: bubble the smaller element
left while it is less than its left neighbor and the index stays at least
one. -/
def shiftLeftGo : Nat → List PathCost → Nat → List PathCost
  | 0, l, _ => l
  | fuel + 1, l, j =>
    if 1 ≤ j && lessPC l j (j - 1) then shiftLeftGo fuel (swapPC l j (j - 1)) (j - 1)
    else l

/-- The right shift of partialInsertionSort_func: bubble the greater
element right while the element at j is less than its left neighbor. -/
def shiftRightGo (b : Nat) : Nat → List PathCost → Nat → List PathCost
  | 0, l, _ => l
  | fuel + 1, l, j =>
    if j < b && lessPC l j (j - 1) then shiftRightGo b fuel (swapPC l j (j - 1)) (j + 1)
    else l

/-- The step loop of partialInsertionSort_func: at most five adjacent
out-of-order pairs are repaired; below fifty elements no shifting is done
at all.  Returns whether the range ended up sorted, with the data. -/
def partialInsLoop (a b : Nat) : Nat → Nat → List PathCost → Bool × List PathCost
  | 0, _, l => (false, l)
  | steps + 1, i, l =>
    let i2 := scanRightGo b b i l
    if i2 = b then (true, l)
    else if b - a < 50 then (false, l)
    else
      let l1 := swapPC l i2 (i2 - 1)
      let l2 := if i2 - a ≥ 2 then shiftLeftGo i2 l1 (i2 - 1) else l1
      let l3 := if b - i2 ≥ 2 then shiftRightGo b b l2 (i2 + 1) else l2
      partialInsLoop a b steps i2 l3

/-- partialInsertionSort_func from zsortfunc.go. -/
def partialInsertionSortGo (l : List PathCost) (a b : Nat) : Bool × List PathCost :=
  partialInsLoop a b 5 (a + 1) l

/-- The left scan of partition_func: advance i while i is at most j and the
element at i is less than the pivot parked at a. -/
def partScanI (l : List PathCost) (a j : Nat) : Nat → Nat → Nat
  | 0, i => i
  | fuel + 1, i => if i ≤ j && lessPC l i a then partScanI l a j fuel (i + 1) else i

/-- The right scan of partition_func: retreat j while i is at most j and
the element at j is not less than the pivot parked at a. -/
def partScanJ (l : List PathCost) (a i : Nat) : Nat → Nat → Nat
  | 0, j => j
  | fuel + 1, j => if i ≤ j && !(lessPC l j a) then partScanJ l a i fuel (j - 1) else j

/-- The interchange loop of partition_func after its first special-cased
round: scan from both ends, stop when the scans cross, else swap and step
both inward. -/
def partLoopGo (a b : Nat) : Nat → List PathCost → Nat → Nat → Nat × List PathCost
  | 0, l, _, j => (j, l)
  | fuel + 1, l, i, j =>
    let i2 := partScanI l a j b i
    let j2 := partScanJ l a i2 b j
    if i2 > j2 then (j2, l)
    else partLoopGo a b fuel (swapPC l i2 j2) (i2 + 1) (j2 - 1)

/-- partition_func from zsortfunc.go: park the pivot at a, run one scan
round that detects an already partitioned range, then the interchange
loop; finally swap the pivot into its slot.  Returns the new pivot index,
the already-partitioned flag and the data. -/
def partitionGo (l : List PathCost) (a b pivot : Nat) : Nat × Bool × List PathCost :=
  let l0 := swapPC l a pivot
  let i0 := partScanI l0 a (b - 1) b (a + 1)
  let j0 := partScanJ l0 a i0 b (b - 1)
  if i0 > j0 then (j0, true, swapPC l0 j0 a)
  else
    let l1 := swapPC l0 i0 j0
    let r := partLoopGo a b b l1 (i0 + 1) (j0 - 1)
    (r.1, false, swapPC r.2 r.1 a)

/-- The left scan of partitionEqual_func: advance i while the pivot parked
at a is not less than the element at i. -/
def peScanI (l : List PathCost) (a j : Nat) : Nat → Nat → Nat
  | 0, i => i
  | fuel + 1, i => if i ≤ j && !(lessPC l a i) then peScanI l a j fuel (i + 1) else i

/-- The right scan of partitionEqual_func: retreat j while the pivot parked
at a is less than the element at j. -/
def peScanJ (l : List PathCost) (a i : Nat) : Nat → Nat → Nat
  | 0, j => j
  | fuel + 1, j => if i ≤ j && lessPC l a j then peScanJ l a i fuel (j - 1) else j

/-- The interchange loop of partitionEqual_func; returns i at the crossing
point. -/
def peLoopGo (a b : Nat) : Nat → List PathCost → Nat → Nat → Nat × List PathCost
  | 0, l, i, _ => (i, l)
  | fuel + 1, l, i, j =>
    let i2 := peScanI l a j b i
    let j2 := peScanJ l a i2 b j
    if i2 > j2 then (i2, l)
    else peLoopGo a b fuel (swapPC l i2 j2) (i2 + 1) (j2 - 1)

/-- partitionEqual_func from zsortfunc.go: split the range into elements
equal to the pivot and elements greater, assuming none is smaller. -/
def partitionEqualGo (l : List PathCost) (a b pivot : Nat) : Nat × List PathCost :=
  let l0 := swapPC l a pivot
  peLoopGo a b b l0 (a + 1) (b - 1)

/-- pdqsort_func from zsortfunc.go.  One unit of fuel pays for one
iteration of the outer for loop or one recursive call on the shorter
half; every iteration strictly shrinks b - a, so one more than the
initial length suffices, and running out is reported as none. -/
def pdqsortGo : Nat → List PathCost → Nat → Nat → Nat → Bool → Bool →
    Option (List PathCost)
  | 0, _, _, _, _, _, _ => none
  | fuel + 1, l, a, b, limit, wasBalanced, wasPartitioned =>
    let length := b - a
    if length ≤ 12 then some (insertionSortGo l a b)
    else if limit = 0 then some (heapSortGo l a b)
    else
      let bp := if !wasBalanced then (breakPatternsGo l a b, limit - 1) else (l, limit)
      let cp := choosePivotGo bp.1 a b
      let rev :=
        if cp.2 = SortedHint.decreasingHint
        then (reverseRangeGo (b - a) bp.1 a (b - 1), (b - 1) - (cp.1 - a),
          SortedHint.increasingHint)
        else (bp.1, cp.1, cp.2)
      match (if wasBalanced && wasPartitioned && rev.2.2 = SortedHint.increasingHint
             then partialInsertionSortGo rev.1 a b else (false, rev.1)) with
      | (true, l3) => some l3
      | (false, l3) =>
        if a > 0 && !(lessPC l3 (a - 1) rev.2.1) then
          let pe := partitionEqualGo l3 a b rev.2.1
          pdqsortGo fuel pe.2 pe.1 b bp.2 wasBalanced wasPartitioned
        else
          let pt := partitionGo l3 a b rev.2.1
          let wasBalanced2 := decide (min (pt.1 - a) (b - pt.1) ≥ length / 8)
          if pt.1 - a < b - pt.1 then
            match pdqsortGo fuel pt.2.2 a pt.1 bp.2 true true with
            | none => none
            | some l5 => pdqsortGo fuel l5 (pt.1 + 1) b bp.2 wasBalanced2 pt.2.1
          else
            match pdqsortGo fuel pt.2.2 (pt.1 + 1) b bp.2 true true with
            | none => none
            | some l5 => pdqsortGo fuel l5 a pt.1 bp.2 wasBalanced2 pt.2.1

/-- sort.Slice from the Go standard library: pdqsort over the whole slice,
with the depth limit bits.Len of the length, both flags initially true. -/
def sortSliceGo (l : List PathCost) : Option (List PathCost) :=
  pdqsortGo (l.length + 1) l 0 l.length (bitsLen l.length) true true

/-- The body of the per-ant loop of AssignAnts over the faithful
sort.Slice: build the cost slice, run the Go sort, and increment the
allocation of the front path. -/
def assignOneGo (paths : List (List String)) (antsPerPath : List Int) :
    Option (List Int) :=
  match sortSliceGo (costsOf paths antsPerPath) with
  | none => none
  | some sorted =>
    match sorted.head? with
    | some pc => some (antsPerPath.set pc.index (antsPerPath.getD pc.index 0 + 1))
    | none => some antsPerPath

/-- The per-ant loop of AssignAnts over the faithful sort.Slice. -/
def assignLoopGo (paths : List (List String)) : Nat → List Int → Option (List Int)
  | 0, alloc => some alloc
  | n + 1, alloc =>
    match assignOneGo paths alloc with
    | none => none
    | some alloc2 => assignLoopGo paths n alloc2

/-- AssignAnts over the faithful sort.Slice embedding; agrees with
AssignAnts whenever the route list has at most twelve routes, where
pdqsort dispatches every cost slice to its stable insertion sort. -/
def AssignAntsGo (antCount : Int) (paths : List (List String)) :
    Option PathAssignment :=
  match assignLoopGo paths antCount.toNat (List.replicate paths.length 0) with
  | none => none
  | some alloc => some ⟨paths, alloc⟩

/-- The tie-break counterexample input: thirteen routes of lengths 6, 6,
2, 10, 10, 10, 2, 10, 10, 10, 10, 10, 10, so the first cost slice is
5, 5, 1, 9, 9, 9, 1, 9, 9, 9, 9, 9, 9 with the minimum cost tied between
route 2 and route 6. -/
def tiePaths : List (List String) :=
  [["s", "a1", "a2", "a3", "a4", "e"],
   ["s", "b1", "b2", "b3", "b4", "e"],
   ["s", "e"],
   ["s", "c1", "c2", "c3", "c4", "c5", "c6", "c7", "c8", "e"],
   ["s", "d1", "d2", "d3", "d4", "d5", "d6", "d7", "d8", "e"],
   ["s", "f1", "f2", "f3", "f4", "f5", "f6", "f7", "f8", "e"],
   ["s", "e2"],
   ["s", "h1", "h2", "h3", "h4", "h5", "h6", "h7", "h8", "e"],
   ["s", "i1", "i2", "i3", "i4", "i5", "i6", "i7", "i8", "e"],
   ["s", "j1", "j2", "j3", "j4", "j5", "j6", "j7", "j8", "e"],
   ["s", "k1", "k2", "k3", "k4", "k5", "k6", "k7", "k8", "e"],
   ["s", "l1", "l2", "l3", "l4", "l5", "l6", "l7", "l8", "e"],
   ["s", "m1", "m2", "m3", "m4", "m5", "m6", "m7", "m8", "e"]]




/-! ## Simulation (src/simulation/simulation.go) -/

/-- PathSim mirrors structs.PathSim: the path, the per-ant position indices
(-1 means not yet injected) and the per-ant global ids. -/
structure PathSim where
  path : List String
  positions : List Int
  antIDs : List Int
deriving Repr, DecidableEq

/-- A recorded move: the ant id and the destination room name
(Go formats this as the string "L" id "-" room). -/
structure Move where
  ant : Int
  room : String
deriving Repr, DecidableEq

/-- isRoomOccupied from simulation.go: some ant currently sits at the given
room index. -/
def isRoomOccupied (positions : List Int) (roomIndex : Int) : Bool :=
  positions.any (fun pos => pos = roomIndex)

/-- The two-room branch of processTurn: scan the ants in index order and
inject the first not-yet-entered one at index 1 (the end room), recording
its move; at most one ant enters per turn.  The parameter j tracks the ant
index for the id lookup. -/
def injectDirect (room1 : String) (antIDs : List Int) : List Int → Nat → List Move × List Int
  | [], _ => ([], [])
  | p :: ps, j =>
    if p = -1 then
      ([⟨antIDs.getD j 0, room1⟩], 1 :: ps)
    else
      let r := injectDirect room1 antIDs ps (j + 1)
      (r.1, p :: r.2)

/-- The body of the reverse ant loop of processTurn for one ant index j of a
path with more than two rooms.  The ant reads its own position from the
turn-start snapshot oldPos; occupancy is checked against (and updates go
into) the evolving newPositions. -/
def antStep (path : List String) (antIDs oldPos : List Int) (j : Nat)
    (st : List Move × List Int) : List Move × List Int :=
  if oldPos.getD j 0 = -1 then
    if isRoomOccupied st.2 1 = true then st
    else (st.1 ++ [⟨antIDs.getD j 0, path.getD 1 ""⟩], st.2.set j 1)
  else if oldPos.getD j 0 < (path.length : Int) - 1 then
    if oldPos.getD j 0 + 1 = (path.length : Int) - 1
        ∨ isRoomOccupied st.2 (oldPos.getD j 0 + 1) = false then
      (st.1 ++ [⟨antIDs.getD j 0, path.getD (oldPos.getD j 0 + 1).toNat ""⟩],
        st.2.set j (oldPos.getD j 0 + 1))
    else st
  else st

/-- The reverse ant loop of processTurn: process ant indices j-1 down to 0
(Go: for j := len(positions) - 1; j >= 0; j--). -/
def antLoop (path : List String) (antIDs oldPos : List Int) :
    Nat → List Move × List Int → List Move × List Int
  | 0, st => st
  | j + 1, st => antLoop path antIDs oldPos j (antStep path antIDs oldPos j st)

/-- processTurn for a single path: branch on a two-room path versus a longer
one, compute the new positions from the turn-start snapshot and return the
recorded moves (the grid string built for the visualizer carries no
simulation state and is not modelled). -/
def processTurnPath (sim : PathSim) : List Move × PathSim :=
  if sim.path.length = 2 then
    let r := injectDirect (sim.path.getD 1 "") sim.antIDs sim.positions 0
    (r.1, { sim with positions := r.2 })
  else
    let r := antLoop sim.path sim.antIDs sim.positions sim.positions.length
      ([], sim.positions)
    (r.1, { sim with positions := r.2 })

/-- processTurn from simulation.go: process every path in order, collecting
the moves of the turn. -/
def processTurn : List PathSim → List Move × List PathSim
  | [] => ([], [])
  | sim :: rest =>
    let r := processTurnPath sim
    let rr := processTurn rest
    (r.1 ++ rr.1, r.2 :: rr.2)

/-- initSimulation from simulation.go: one PathSim per path, every position
at the sentinel -1, ant ids assigned sequentially across paths starting at
the running counter (1 at the top call).  A negative count yields no ants
(Go would panic on make with a negative length; the claims all concern
non-negative allocations). -/
def initSimLoop : List (List String) → List Int → Int → List PathSim
  | [], _, _ => []
  | p :: ps, counts, ctr =>
    let count := counts.headD 0
    let positions := List.replicate count.toNat (-1 : Int)
    let antIDs := (List.range count.toNat).map (fun k => ctr + (k : Int))
    ⟨p, positions, antIDs⟩ :: initSimLoop ps (counts.tail) (ctr + count.toNat)

/-- initSimulation entry point (ant ids start at 1). -/
def initSimulation (pathList : List (List String)) (antsPerPath : List Int) :
    List PathSim :=
  initSimLoop pathList antsPerPath 1

/-- The outer turn loop of SimulateMultiPath, with explicit fuel: run
processTurn; a turn with no moves ends the simulation unrecorded, otherwise
record the turn and continue.  none models fuel exhaustion; the canonical
fuel chosen in SimulateMultiPath is proven sufficient for route lists whose
routes all have at least two rooms. -/
def simulateLoop : Nat → List PathSim → Option (List (List Move))
  | 0, _ => none
  | fuel + 1, sims =>
    if (processTurn sims).1 = [] then some []
    else
      match simulateLoop fuel (processTurn sims).2 with
      | some tr => some ((processTurn sims).1 :: tr)
      | none => none

/-- The upper bound of the potential function: the sum over routes of
(length - 1) times the ants allocated to the route. -/
def potentialBound : List (List String) → List Int → Nat
  | [], _ => 0
  | p :: ps, counts => (p.length - 1) * (counts.headD 0).toNat
      + potentialBound ps counts.tail

/-- SimulateMultiPath from simulation.go: initialize the per-path states and
run turns until a turn records no move.  The recorded trace is the list of
per-turn move lists; its length is the total turn count the Go code reports.
The Go loop carries no fuel; the canonical fuel below is proven sufficient
(the potential argument) whenever every route has at least two rooms. -/
def SimulateMultiPath (pathList : List (List String)) (antsPerPath : List Int) :
    Option (List (List Move)) :=
  simulateLoop (potentialBound pathList antsPerPath + 1)
    (initSimulation pathList antsPerPath)



/-! ## Route finder (src/graph/graph.go) -/

/-- Parent-pointer lookup with the Go map default (the empty string) when
the room has no recorded parent. -/
def pLookup : List (String × String) → String → String
  | [], _ => ""
  | (k, v) :: rest, x => if k = x then v else pLookup rest x

/-- Path reconstruction in bfs: walk backwards from endRoom along the parent
pointers, prepending each room, until the default empty string is reached
(the start room has no parent entry).  The Go loop carries no fuel; the fuel
passed at the call site (one more than the visited count) is proven
sufficient via the parent-chain invariant. -/
def rebuild (parent : List (String × String)) : Nat → String → List String → List String
  | 0, _, acc => acc
  | fuel + 1, room, acc =>
    if room = "" then acc
    else rebuild parent fuel (pLookup parent room) (room :: acc)

/-- The neighbor scan inside the bfs loop: for each neighbor not yet
visited, mark it visited, record the parent pointer and append it to the
queue. -/
def enqueueNbrs (q : String) : List String → List String → List String →
    List (String × String) → List String × List String × List (String × String)
  | [], queue, visited, parent => (queue, visited, parent)
  | n :: ns, queue, visited, parent =>
    if n ∈ visited then enqueueNbrs q ns queue visited parent
    else enqueueNbrs q ns (queue ++ [n]) (n :: visited) ((n, q) :: parent)

/-- Every room name mentioned by the adjacency structure: the keys and all
rooms in the neighbor lists. -/
def allNodes : Conns → List String
  | [] => []
  | (k, v) :: rest => k :: (v ++ allNodes rest)

/-- The number of mentioned rooms not yet visited; the bfs loop measure. -/
def unvisN (conns : Conns) (visited : List String) : Nat :=
  ((allNodes conns).dedup.filter (fun x => decide (x ∉ visited))).length

/-- Outcome of one run of the bfs queue loop: a found path, an exhausted
queue (Go: nil, false), or fuel running out.  The fuel branch is proven
unreachable for the fuel bfs passes. -/
inductive BfsRun where
  | found (path : List String)
  | exhausted
  | fuelOut
deriving Repr, DecidableEq

/-- The bfs queue loop: pop the front room; if it is the end, reconstruct
the path from the parent pointers, otherwise enqueue its unvisited
neighbors and continue.  The loop terminates because every iteration pops
one room and visits each newly enqueued room; the fuel makes that measure
explicit. -/
def bfsLoop (conns : Conns) (endRoom : String) :
    Nat → List String → List String → List (String × String) → BfsRun
  | 0, _, _, _ => .fuelOut
  | _ + 1, [], _, _ => .exhausted
  | fuel + 1, q :: rest, visited, parent =>
    if q = endRoom then
      .found (rebuild parent (visited.length + 1) endRoom [])
    else
      let r := enqueueNbrs q (lookupD conns q) rest visited parent
      bfsLoop conns endRoom fuel r.1 r.2.1 r.2.2

/-- The fuel passed by bfs: enough to pay for every pop the loop can make. -/
def bfsFuel (conns : Conns) : Nat := (allNodes conns).length + 2

/-- bfs from src/graph/graph.go: breadth-first search from startRoom to
endRoom, with the start room marked visited up front.  Returns the found
path, or none when the queue empties without reaching the end. -/
def bfs (conns : Conns) (startRoom endRoom : String) : Option (List String) :=
  match bfsLoop conns endRoom (bfsFuel conns) [startRoom] [startRoom] [] with
  | .found p => some p
  | _ => none

/-- removeEdge from src/graph/graph.go: drop every occurrence of the given
room name from a neighbor list. -/
def removeEdge (connectionList : List String) (roomNameToRemove : String) :
    List String :=
  connectionList.filter (fun r => decide (r ≠ roomNameToRemove))

/-- removePathEdges from src/graph/graph.go: for each consecutive pair of
the path, remove the forward direction of the used tunnel from the working
connections (the reverse direction is kept, as the Go comment notes). -/
def removePathEdges : Conns → List String → Conns
  | conns, a :: b :: rest =>
    removePathEdges (alSet conns a (removeEdge (lookupD conns a) b)) (b :: rest)
  | conns, _ => conns

/-- The start/end scan of FindMultiplePaths over the Rooms map: every
flagged room overwrites the held name, so the last flagged room in
iteration order wins; rooms are scanned in list order here (the Go map
iteration order is unspecified, which matters only when several rooms carry
the same flag). -/
def resolveStartEnd (rooms : List Room) : String × String :=
  rooms.foldl
    (fun se r =>
      (if r.isStart then r.name else se.1, if r.isEnd then r.name else se.2))
    ("", "")

/-- The deep copy of the Neighbors map made by FindMultiplePaths before any
mutation; in this value model the copy is content-identical. -/
def copyConns (c : Conns) : Conns := c.map (fun p => (p.1, p.2))

/-- Total number of directed edges held by the working connections; the
outer-loop measure of FindMultiplePaths. -/
def totalEdges : Conns → Nat
  | [] => 0
  | (_, v) :: rest => v.length + totalEdges rest

/-- Outcome of FindMultiplePaths.  The two error constructors mirror the Go
errors "ERROR: missing start or end room" and "ERROR: no valid paths
found"; diverge models the Go loop never returning (it is proven
unreachable whenever the resolved start and end differ). -/
inductive FindResult where
  | paths (ps : List (List String))
  | missingEndpoint
  | noRouteFound
  | diverge
deriving Repr, DecidableEq

/-- The outer search loop of FindMultiplePaths: repeat bfs, appending each
found path and removing its forward tunnel directions, until bfs fails;
then error if no path was ever found.  Fuel models the unbounded Go loop. -/
def findRoutesLoop (startRoom endRoom : String) :
    Nat → Conns → List (List String) → FindResult
  | 0, _, _ => .diverge
  | fuel + 1, conns, acc =>
    match bfs conns startRoom endRoom with
    | none => if acc = [] then .noRouteFound else .paths acc
    | some path =>
      findRoutesLoop startRoom endRoom fuel (removePathEdges conns path) (acc ++ [path])

/-- FindMultiplePaths from src/graph/graph.go: resolve the start and end
rooms from the flags, fail when either resolves to the empty default, copy
the connections, and run the repeated-bfs loop.  The canonical fuel (one
more than the number of directed edges) is proven sufficient whenever the
resolved start and end differ. -/
def FindMultiplePaths (g : Graph) : FindResult :=
  let se := resolveStartEnd g.rooms
  if se.1 = "" || se.2 = "" then .missingEndpoint
  else
    let conns := copyConns g.neighbors
    findRoutesLoop se.1 se.2 (totalEdges conns + 1) conns []

/-- The interior-overlap witness graph: rooms s (start), a, b, c, e (end)
with tunnels s-a, a-e, s-b, b-a, a-c, c-e, exactly as BuildGraph would
store them. -/
def overlapGraph : Graph :=
  { rooms := [⟨"s", 0, 0, true, false⟩, ⟨"a", 0, 0, false, false⟩,
      ⟨"b", 0, 0, false, false⟩, ⟨"c", 0, 0, false, false⟩,
      ⟨"e", 0, 0, false, true⟩],
    neighbors := [("s", ["a", "b"]), ("a", ["s", "e", "b", "c"]),
      ("e", ["a", "c"]), ("b", ["s", "a"]), ("c", ["a", "e"])] }

/-! ## Spec-side predicates used to state the claims -/

/-- The interior of a route: every node except the first and the last. -/
def interior (route : List String) : List String := route.tail.dropLast

/-- A walk through the adjacency structure: consecutive nodes are joined by
a stored directed edge. -/
def IsWalk (conns : Conns) : List String → Prop
  | [] => True
  | [_] => True
  | a :: b :: rest => b ∈ lookupD conns a ∧ IsWalk conns (b :: rest)

/-- A path witnessing that e is reachable from s in the adjacency
structure. -/
def IsPathFrom (conns : Conns) (s e : String) (p : List String) : Prop :=
  p.head? = some s ∧ p.getLast? = some e ∧ IsWalk conns p

/-- Reachability of e from s: some path joins them. -/
def Reachable (conns : Conns) (s e : String) : Prop :=
  ∃ p, IsPathFrom conns s e p

/-- The occupancy condition of the spec for a position list on a route of
L rooms: two distinct ants share a value only if it is the not-yet-entered
sentinel, the start index 0 or the final index. -/
def PositionsOK (L : Nat) (l : List Int) : Prop :=
  ∀ i j, i < j → j < l.length → l.getD i 0 = l.getD j 0 →
    l.getD i 0 = -1 ∨ l.getD i 0 = 0 ∨ l.getD i 0 = (L : Int) - 1

/-- The occupancy condition of the spec for one route state. -/
def OccupancyOK (sim : PathSim) : Prop :=
  PositionsOK sim.path.length sim.positions

/-- The potential of one route state: the sum of the ant positions with the
sentinel counted as zero (the spec potential function, section 4.4). -/
def potential (positions : List Int) : Nat :=
  (positions.map Int.toNat).sum

/-- The potential of the whole simulation state. -/
def potentialAll (sims : List PathSim) : Nat :=
  (sims.map (fun s => potential s.positions)).sum

/-- The potential upper bound expressed on the live simulation state. -/
def simsBound (sims : List PathSim) : Nat :=
  (sims.map (fun s => (s.path.length - 1) * s.positions.length)).sum

/-- One whole simulation turn viewed as a state transformer. -/
def stepSims (sims : List PathSim) : List PathSim :=
  (processTurn sims).2

/-- The state invariant of the simulation used by the termination proof:
every route has at least two rooms and every ant position lies between the
sentinel and the final index. -/
def ValidSims (sims : List PathSim) : Prop :=
  ∀ s ∈ sims, 2 ≤ s.path.length
    ∧ ∀ i, i < s.positions.length →
        -1 ≤ s.positions.getD i 0
        ∧ s.positions.getD i 0 ≤ (s.path.length : Int) - 1

/-! ## Closed-form single-route state (proof auxiliary for the makespan
claim)

On a single route of L rooms (L at least 3) carrying N ants, the ant with
index j enters at turn N - j (the reverse loop injects the highest index
first) and then advances once per turn until it parks at the final index.
After t turns its position is the clamped value below. -/

/-- Position of ant j after t turns on a single route of L rooms with N
ants: the sentinel until turn N - 1 - j has passed, then advancing by one
per turn, clamped at the final index L - 1. -/
def posF (L N t j : Nat) : Int :=
  if (t : Int) ≤ (N : Int) - 1 - (j : Int) then -1
  else if (t : Int) - ((N : Int) - 1 - (j : Int)) ≤ (L : Int) - 1 then
    (t : Int) - ((N : Int) - 1 - (j : Int))
  else (L : Int) - 1

/-- The whole position list after t turns. -/
def stateF (L N t : Nat) : List Int :=
  (List.range N).map (posF L N t)

/-- The mid-loop hybrid state: ants with index below the loop counter still
hold their turn-t positions, the already processed ones their turn-(t+1)
positions. -/
def hybridF (L N t c : Nat) : List Int :=
  (List.range N).map (fun i => if i < c then posF L N t i else posF L N (t + 1) i)

/-! ## The pipeline (src/app/app.go) for the determinism claim -/

/-- The core pipeline wired as in app.Run: discover routes, assign the
ants, simulate.  An error from the route finder halts the pipeline. -/
def pipeline (g : Graph) (antCount : Int) :
    Option (List (List String) × PathAssignment × Option (List (List Move))) :=
  match FindMultiplePaths g with
  | .paths ps =>
    let assignment := AssignAnts antCount ps
    some (ps, assignment, SimulateMultiPath ps assignment.antsPerPath)
  | _ => none

/-! ## Heap model of FindMultiplePaths for the frame claim

Go slices are references into a heap; the claim that FindMultiplePaths
never mutates the original Graph is about that heap.  The model below
makes the heap explicit: a store of neighbor-list cells addressed by
index, with the Neighbors map holding cell addresses.  FindMultiplePaths
first copies every cell into fresh cells (the deep copy of the Go code)
and then mutates only through the copied map. -/

/-- The heap of neighbor-list cells. -/
abbrev Store := List (List String)

/-- A Neighbors map whose values live in the store: name to cell address. -/
abbrev ConnRefs := List (String × Nat)

/-- Read a cell (Go reads through a slice reference). -/
def readCell (st : Store) (addr : Nat) : List String := st.getD addr []

/-- Materialize the map contents currently referenced. -/
def extractConns (st : Store) (refs : ConnRefs) : Conns :=
  refs.map (fun p => (p.1, readCell st p.2))

/-- The copy loop of FindMultiplePaths: for every entry allocate a fresh
cell holding a copy of the referenced list.  Returns the extended store and
the map of copied references. -/
def copyRefs : Store → ConnRefs → Store × ConnRefs
  | st, [] => (st, [])
  | st, (name, addr) :: rest =>
    let st' := st ++ [readCell st addr]
    let r := copyRefs st' rest
    (r.1, (name, st.length) :: r.2)

/-- Address lookup in the copied map. -/
def refLookup : ConnRefs → String → Option Nat
  | [], _ => none
  | (k, a) :: rest, x => if k = x then some a else refLookup rest x

/-- removePathEdges acting on the heap: write the filtered neighbor list
back through the reference of each path node (a room absent from the map
holds no cell to write). -/
def removePathEdgesHeap : Store → ConnRefs → List String → Store
  | st, refs, a :: b :: rest =>
    let st' := match refLookup refs a with
      | some addr => st.set addr (removeEdge (readCell st addr) b)
      | none => st
    removePathEdgesHeap st' refs (b :: rest)
  | st, _, _ => st

/-- The outer search loop of FindMultiplePaths on the heap: bfs reads the
current contents of the copied cells, each found path is applied as writes
through the copied references. -/
def findRoutesLoopHeap (startRoom endRoom : String) :
    Nat → Store → ConnRefs → List (List String) → Store × FindResult
  | 0, st, _, _ => (st, .diverge)
  | fuel + 1, st, refs, acc =>
    match bfs (extractConns st refs) startRoom endRoom with
    | none => (st, if acc = [] then .noRouteFound else .paths acc)
    | some path =>
      findRoutesLoopHeap startRoom endRoom fuel
        (removePathEdgesHeap st refs path) refs (acc ++ [path])

/-- FindMultiplePaths on the heap model: resolve the endpoints, deep-copy
the neighbor cells, and run the search loop; the final store is returned so
the frame property can be stated. -/
def FindMultiplePathsHeap (rooms : List Room) (st : Store) (refs : ConnRefs) :
    Store × FindResult :=
  let se := resolveStartEnd rooms
  if se.1 = "" || se.2 = "" then (st, .missingEndpoint)
  else
    let r := copyRefs st refs
    findRoutesLoopHeap se.1 se.2 (totalEdges (extractConns r.1 r.2) + 1) r.1 r.2 []

/-! ## Parent-chain predicates (proof auxiliaries for the bfs correctness
argument behind the error-contract claim) -/

/-- A parent chain, listed from its tip down to the search root: each room
maps to the next via the recorded parent pointer and is one of that next
room's stored neighbors; the root carries no parent entry, so its lookup
gives the Go map default. -/
def UpChain (parent : List (String × String)) (conns : Conns) : List String → Prop
  | [] => False
  | [x] => pLookup parent x = ""
  | x :: y :: rest =>
    pLookup parent x = y ∧ x ∈ lookupD conns y ∧ UpChain parent conns (y :: rest)

/-- The bfs soundness invariant: every visited room is the tip of a
duplicate-free parent chain rooted at the start room whose rooms all lie in
the visited set. -/
def VisitedOK (conns : Conns) (parent : List (String × String)) (s : String)
    (visited : List String) : Prop :=
  ∀ x ∈ visited, ∃ c : List String,
    UpChain parent conns c ∧ c.head? = some x ∧ c.getLast? = some s
      ∧ c.Nodup ∧ ∀ y ∈ c, y ∈ visited

/-! ## Theorems -/

/-! ### C1: interior disjointness of the discovered routes -/

/-- C1: the claim that two distinct routes returned by FindMultiplePaths
never share an interior node fails on the code.  On overlapGraph (tunnels
s-a, a-e, s-b, b-a, a-c, c-e) the code returns the routes s, a, e and
s, b, a, c, e, whose interiors both hold the node a: removePathEdges
removes only the forward tunnel directions of a used path, not its
interior nodes, exactly the defect the spec flags in section 9. -/
theorem C1_interior_overlap_on_code :
    FindMultiplePaths overlapGraph
      = .paths [["s", "a", "e"], ["s", "b", "a", "c", "e"]]
    ∧ "a" ∈ interior ["s", "a", "e"]
    ∧ "a" ∈ interior ["s", "b", "a", "c", "e"] :=
  ⟨by decide, by decide, by decide⟩

/-! ### C10: zero tokens -/

theorem initSimLoop_zero_positions :
    ∀ (paths : List (List String)) (counts : List Int) (ctr : Int),
    (∀ c ∈ counts, c = 0) →
    ∀ s ∈ initSimLoop paths counts ctr, s.positions = [] := by
  intro paths
  induction paths with
  | nil => intro counts ctr _ s hs; simp [initSimLoop] at hs
  | cons p ps ih =>
    intro counts ctr hz s hs
    rw [initSimLoop] at hs
    have hhead : counts.headD 0 = 0 := by
      cases counts with
      | nil => rfl
      | cons c cs => exact hz c (List.mem_cons_self _ _)
    rcases List.mem_cons.mp hs with rfl | hrest
    · show List.replicate (counts.headD 0).toNat (-1 : Int) = []
      rw [hhead]
      rfl
    · exact ih counts.tail _ (fun c hc => hz c (List.mem_of_mem_tail hc)) s hrest

theorem processTurnPath_no_ants (sim : PathSim) (hsim : sim.positions = []) :
    processTurnPath sim = ([], sim) := by
  obtain ⟨path, positions, antIDs⟩ := sim
  simp only at hsim
  subst hsim
  rw [processTurnPath]
  by_cases h2 : path.length = 2
  · simp [h2, injectDirect]
  · simp [h2, antLoop]

theorem processTurn_no_ants :
    ∀ sims : List PathSim, (∀ s ∈ sims, s.positions = []) →
    processTurn sims = ([], sims) := by
  intro sims
  induction sims with
  | nil => intro _; rfl
  | cons sim rest ih =>
    intro h
    have hsim := processTurnPath_no_ants sim (h sim (List.mem_cons_self _ _))
    have hrest := ih (fun s hs => h s (List.mem_cons_of_mem _ hs))
    simp [processTurn, hsim, hrest]

theorem C10_zero_tokens (paths : List (List String)) (hne : paths ≠ []) :
    (AssignAnts 0 paths).antsPerPath = List.replicate paths.length 0
    ∧ SimulateMultiPath paths (AssignAnts 0 paths).antsPerPath = some []
    ∧ (SimulateMultiPath paths (AssignAnts 0 paths).antsPerPath).map List.length
        = some 0 := by
  have h1 : (AssignAnts 0 paths).antsPerPath = List.replicate paths.length 0 := rfl
  have hz : ∀ s ∈ initSimulation paths (List.replicate paths.length 0),
      s.positions = [] :=
    initSimLoop_zero_positions paths _ 1 (fun c hc => List.eq_of_mem_replicate hc)
  have h2 : SimulateMultiPath paths (List.replicate paths.length 0) = some [] := by
    rw [SimulateMultiPath, simulateLoop, processTurn_no_ants _ hz]
    simp
  refine ⟨h1, ?_, ?_⟩
  · rw [h1, h2]
  · rw [h1, h2]; rfl

/-- Witness for C10 at a concrete input. -/
theorem C10_zero_tokens_witness :
    (AssignAnts 0 [["s", "m", "e"]]).antsPerPath = List.replicate 1 0
    ∧ SimulateMultiPath [["s", "m", "e"]] (AssignAnts 0 [["s", "m", "e"]]).antsPerPath
        = some [] :=
  ⟨(C10_zero_tokens [["s", "m", "e"]] (by decide)).1,
   (C10_zero_tokens [["s", "m", "e"]] (by decide)).2.1⟩

/-! ### C6: allocation conservation -/

theorem insertPC_perm (x : PathCost) : ∀ l : List PathCost, (insertPC x l).Perm (x :: l) := by
  intro l
  induction l with
  | nil => exact List.Perm.refl _
  | cons y ys ih =>
    rw [insertPC]
    by_cases h : x.cost < y.cost
    · rw [if_pos h]
    · rw [if_neg h]
      exact (List.Perm.cons y ih).trans (List.Perm.swap x y ys)

theorem foldl_insertPC_perm :
    ∀ (l acc : List PathCost), (l.foldl (fun a x => insertPC x a) acc).Perm (acc ++ l) := by
  intro l
  induction l with
  | nil => intro acc; simp
  | cons x xs ih =>
    intro acc
    rw [List.foldl_cons]
    refine ((ih (insertPC x acc)).trans ?_)
    refine (((insertPC_perm x acc).append_right xs).trans ?_)
    exact List.perm_middle.symm

theorem sortSlice_perm (l : List PathCost) : (sortSlice l).Perm l := by
  simpa [sortSlice] using foldl_insertPC_perm l []

theorem sortSlice_head_mem (l : List PathCost) (pc : PathCost)
    (h : (sortSlice l).head? = some pc) : pc ∈ l := by
  refine (sortSlice_perm l).mem_iff.mp ?_
  cases hs : sortSlice l with
  | nil => rw [hs] at h; cases h
  | cons a t =>
    rw [hs] at h
    simp only [List.head?_cons, Option.some_inj] at h
    rw [← h]
    exact List.mem_cons_self _ _

theorem sortSlice_head_some (l : List PathCost) (hne : l ≠ []) :
    ∃ pc, (sortSlice l).head? = some pc := by
  cases hs : sortSlice l with
  | nil =>
    have := (sortSlice_perm l).length_eq
    rw [hs] at this
    cases l with
    | nil => exact absurd rfl hne
    | cons a t => simp at this
  | cons a t => exact ⟨a, rfl⟩

theorem costsOf_index_lt (paths : List (List String)) (alloc : List Int)
    (pc : PathCost) (h : pc ∈ costsOf paths alloc) : pc.index < paths.length := by
  rw [costsOf] at h
  obtain ⟨j, hj, hjeq⟩ := List.mem_map.mp h
  rw [← hjeq]
  exact List.mem_range.mp hj

theorem costsOf_ne_nil (paths : List (List String)) (alloc : List Int)
    (hne : paths ≠ []) : costsOf paths alloc ≠ [] := by
  rw [costsOf]
  intro h
  have := congrArg List.length h
  simp at this
  exact hne this

theorem assignOne_eq_set (paths : List (List String)) (alloc : List Int)
    (hne : paths ≠ []) :
    ∃ j, j < paths.length
      ∧ assignOne paths alloc = alloc.set j (alloc.getD j 0 + 1) := by
  obtain ⟨pc, hpc⟩ := sortSlice_head_some _ (costsOf_ne_nil paths alloc hne)
  refine ⟨pc.index, costsOf_index_lt _ _ _ (sortSlice_head_mem _ _ hpc), ?_⟩
  rw [assignOne, hpc]

theorem sum_set_succ (l : List Int) :
    ∀ j : Nat, j < l.length → (l.set j (l.getD j 0 + 1)).sum = l.sum + 1 := by
  induction l with
  | nil => intro j hj; simp at hj
  | cons a t ih =>
    intro j hj
    cases j with
    | zero => simp [List.sum_cons]; omega
    | succ j =>
      simp only [List.set_cons_succ, List.getD_cons_succ, List.sum_cons]
      have := ih j (by simpa using hj)
      omega

theorem mem_set_cases (l : List Int) :
    ∀ (j : Nat) (v c : Int), c ∈ l.set j v → c ∈ l ∨ c = v := by
  induction l with
  | nil => intro j v c hc; simp [List.set] at hc
  | cons a t ih =>
    intro j v c hc
    cases j with
    | zero =>
      rcases List.mem_cons.mp hc with rfl | hct
      · right; rfl
      · left; exact List.mem_cons_of_mem _ hct
    | succ j =>
      rcases List.mem_cons.mp hc with rfl | hct
      · left; exact List.mem_cons_self _ _
      · rcases ih j v c hct with h | h
        · left; exact List.mem_cons_of_mem _ h
        · right; exact h

theorem getD_nonneg (l : List Int) :
    ∀ j : Nat, (∀ c ∈ l, 0 ≤ c) → 0 ≤ l.getD j 0 := by
  induction l with
  | nil => intro j _; simp
  | cons a t ih =>
    intro j h
    cases j with
    | zero => exact h a (List.mem_cons_self _ _)
    | succ j =>
      rw [List.getD_cons_succ]
      exact ih j (fun c hc => h c (List.mem_cons_of_mem _ hc))

theorem assignLoop_props (paths : List (List String)) (hne : paths ≠ []) :
    ∀ (n : Nat) (alloc : List Int), alloc.length = paths.length →
    (assignLoop paths n alloc).length = paths.length
    ∧ (assignLoop paths n alloc).sum = alloc.sum + n
    ∧ ((∀ c ∈ alloc, 0 ≤ c) → ∀ c ∈ assignLoop paths n alloc, 0 ≤ c) := by
  intro n
  induction n with
  | zero =>
    intro alloc hlen
    refine ⟨hlen, by simp [assignLoop], fun h => by simpa [assignLoop] using h⟩
  | succ n ih =>
    intro alloc hlen
    obtain ⟨j, hj, hset⟩ := assignOne_eq_set paths alloc hne
    have hjl : j < alloc.length := hlen ▸ hj
    have hlen' : (assignOne paths alloc).length = paths.length := by
      rw [hset, List.length_set, hlen]
    obtain ⟨ih1, ih2, ih3⟩ := ih (assignOne paths alloc) hlen'
    refine ⟨by rwa [assignLoop], ?_, ?_⟩
    · rw [assignLoop, ih2, hset, sum_set_succ _ j hjl]
      push_cast
      ring
    · intro hpos
      rw [assignLoop]
      refine ih3 ?_
      intro c hc
      rw [hset] at hc
      rcases mem_set_cases _ _ _ _ hc with h | h
      · exact hpos c h
      · rw [h]
        have := getD_nonneg alloc j hpos
        omega

/-- C6: the allocation returned by AssignAnts sums exactly to the token
count, every count non-negative, for every non-negative token count and
non-empty route list. -/
theorem C6_allocation_conservation (antCount : Int) (paths : List (List String))
    (h0 : 0 ≤ antCount) (hne : paths ≠ []) :
    (AssignAnts antCount paths).antsPerPath.sum = antCount
    ∧ ∀ c ∈ (AssignAnts antCount paths).antsPerPath, 0 ≤ c := by
  obtain ⟨h1, h2, h3⟩ := assignLoop_props paths hne antCount.toNat
    (List.replicate paths.length 0) (by simp)
  constructor
  · show (assignLoop paths antCount.toNat (List.replicate paths.length 0)).sum = _
    rw [h2]
    simp [Int.toNat_of_nonneg h0]
  · exact h3 (by simp)

/-- Witness for C6 at a concrete input. -/
theorem C6_allocation_conservation_witness :
    (AssignAnts 5 [["s", "e"], ["s", "m", "e"]]).antsPerPath.sum = 5
    ∧ ∀ c ∈ (AssignAnts 5 [["s", "e"], ["s", "m", "e"]]).antsPerPath, 0 ≤ c :=
  C6_allocation_conservation 5 [["s", "e"], ["s", "m", "e"]] (by decide) (by decide)

/-! ### C2: the greedy choice is the minimum-cost route, ties to the
smallest index -/

theorem insertPC_head (x : PathCost) (l : List PathCost) :
    (insertPC x l).head? = minFoldStep l.head? x := by
  cases l with
  | nil => rfl
  | cons y ys =>
    rw [insertPC]
    by_cases h : x.cost < y.cost
    · rw [if_pos h]; simp [minFoldStep, h]
    · rw [if_neg h]; simp [minFoldStep, h]

theorem sortSlice_head_foldmin :
    ∀ l acc : List PathCost,
    (l.foldl (fun a x => insertPC x a) acc).head? = l.foldl minFoldStep acc.head? := by
  intro l
  induction l with
  | nil => intro acc; rfl
  | cons x xs ih =>
    intro acc
    rw [List.foldl_cons, List.foldl_cons, ih, insertPC_head]

theorem sortSlice_head_eq (l : List PathCost) :
    (sortSlice l).head? = l.foldl minFoldStep none := by
  rw [sortSlice, sortSlice_head_foldmin]
  rfl

theorem minFold_range_argmin (c : Nat → Int) :
    ∀ n : Nat, 1 ≤ n → ∃ j0 : Nat,
    ((List.range n).map (fun j => (⟨j, c j⟩ : PathCost))).foldl minFoldStep none
        = some ⟨j0, c j0⟩
    ∧ j0 < n ∧ (∀ k < n, c j0 ≤ c k) ∧ (∀ k < j0, c j0 < c k) := by
  intro n
  induction n with
  | zero => intro h; exact absurd h (by omega)
  | succ n ih =>
    intro _
    by_cases hn : n = 0
    · subst hn
      refine ⟨0, ?_, by omega, ?_, by omega⟩
      · simp [List.range_succ, List.range_zero, minFoldStep]
      · intro k hk
        have : k = 0 := by omega
        rw [this]
    · obtain ⟨j0, hfold, hlt, hmin, hstrict⟩ := ih (by omega)
      rw [List.range_succ, List.map_append, List.foldl_append]
      simp only [List.map_cons, List.map_nil, List.foldl_cons, List.foldl_nil]
      rw [hfold]
      by_cases hc : c n < c j0
      · refine ⟨n, ?_, by omega, ?_, ?_⟩
        · simp [minFoldStep, hc]
        · intro k hk
          by_cases hkn : k < n
          · exact le_of_lt (lt_of_lt_of_le hc (hmin k hkn))
          · have : k = n := by omega
            rw [this]
        · intro k hk
          exact lt_of_lt_of_le hc (hmin k hk)
      · refine ⟨j0, by simp [minFoldStep, hc], by omega, ?_, hstrict⟩
        intro k hk
        by_cases hkn : k < n
        · exact hmin k hkn
        · have : k = n := by omega
          rw [this]
          exact not_lt.mp hc

theorem foldlmin_le_init : ∀ (l : List Int) (a : Int), l.foldl min a ≤ a := by
  intro l
  induction l with
  | nil => intro a; exact le_refl a
  | cons x xs ih =>
    intro a
    rw [List.foldl_cons]
    exact le_trans (ih (min a x)) (min_le_left a x)

theorem foldlmin_le_mem : ∀ (l : List Int) (a z : Int), z ∈ l → l.foldl min a ≤ z := by
  intro l
  induction l with
  | nil => intro a z hz; cases hz
  | cons x xs ih =>
    intro a z hz
    rw [List.foldl_cons]
    rcases List.mem_cons.mp hz with rfl | hzt
    · exact le_trans (foldlmin_le_init xs (min a z)) (min_le_right a z)
    · exact ih (min a x) z hzt

theorem foldlmin_mem_or : ∀ (l : List Int) (a : Int), l.foldl min a = a ∨ l.foldl min a ∈ l := by
  intro l
  induction l with
  | nil => intro a; left; rfl
  | cons x xs ih =>
    intro a
    rw [List.foldl_cons]
    rcases ih (min a x) with h | h
    · rcases min_choice a x with hm | hm
      · left; rw [h, hm]
      · right; rw [h, hm]; exact List.mem_cons_self _ _
    · right; exact List.mem_cons_of_mem _ h

theorem specMin_spec (cs : List Int) (h : cs ≠ []) :
    specMin cs ∈ cs ∧ ∀ z ∈ cs, specMin cs ≤ z := by
  cases cs with
  | nil => exact absurd rfl h
  | cons c0 t =>
    have hunf : specMin (c0 :: t) = t.foldl min c0 := by
      rw [specMin]
      simp [List.foldl_cons]
    constructor
    · rw [hunf]
      rcases foldlmin_mem_or t c0 with h | h
      · rw [h]; exact List.mem_cons_self _ _
      · exact List.mem_cons_of_mem _ h
    · intro z hz
      rw [hunf]
      rcases List.mem_cons.mp hz with rfl | hzt
      · exact foldlmin_le_init t z
      · exact foldlmin_le_mem t c0 z hzt

theorem firstIdxOf_spec (v : Int) :
    ∀ cs : List Int, v ∈ cs →
    firstIdxOf v cs < cs.length ∧ cs.getD (firstIdxOf v cs) 0 = v
    ∧ ∀ k < firstIdxOf v cs, cs.getD k 0 ≠ v := by
  intro cs
  induction cs with
  | nil => intro h; cases h
  | cons c t ih =>
    intro hv
    rw [firstIdxOf]
    by_cases hc : c = v
    · rw [if_pos hc]
      exact ⟨by simp, hc, by omega⟩
    · rw [if_neg hc]
      have hvt : v ∈ t := by
        rcases List.mem_cons.mp hv with rfl | h
        · exact absurd rfl hc
        · exact h
      obtain ⟨ih1, ih2, ih3⟩ := ih hvt
      refine ⟨by simpa using ih1, by simpa using ih2, ?_⟩
      intro k hk
      cases k with
      | zero => simpa using hc
      | succ k =>
        rw [List.getD_cons_succ]
        exact ih3 k (by omega)

theorem getD_map_range (f : Nat → Int) :
    ∀ n k : Nat, k < n → ((List.range n).map f).getD k 0 = f k := by
  intro n
  induction n with
  | zero => intro k hk; omega
  | succ n ih =>
    intro k hk
    rw [List.range_succ, List.map_append]
    by_cases hkn : k < n
    · rw [List.getD_append _ _ _ _ (by simpa using hkn)]
      exact ih k hkn
    · have hk' : k = n := by omega
      subst hk'
      have hlen : ((List.range k).map f).length = k := by simp
      rw [List.getD_eq_getElem?_getD, List.getElem?_append_right (by omega)]
      simp [hlen]

theorem argmin_unique (c : Nat → Int) (n i j : Nat) (hi : i < n) (hj : j < n)
    (hmini : ∀ k < n, c i ≤ c k) (hstricti : ∀ k < i, c i < c k)
    (hminj : ∀ k < n, c j ≤ c k) (hstrictj : ∀ k < j, c j < c k) : i = j := by
  rcases Nat.lt_trichotomy i j with h | h | h
  · have h1 := hstrictj i h
    have h2 := hmini j hj
    omega
  · exact h
  · have h1 := hstricti j h
    have h2 := hminj i hi
    omega

theorem specPick_argmin (paths : List (List String)) (alloc : List Int)
    (hne : paths ≠ []) :
    specPick paths alloc < paths.length
    ∧ (∀ k < paths.length, specCost paths alloc (specPick paths alloc) ≤ specCost paths alloc k)
    ∧ (∀ k < specPick paths alloc, specCost paths alloc (specPick paths alloc) < specCost paths alloc k) := by
  have hn : 1 ≤ paths.length := by
    cases paths with
    | nil => exact absurd rfl hne
    | cons p ps => simp
  set c := specCost paths alloc with hc
  set cs := (List.range paths.length).map c with hcs
  have hcsne : cs ≠ [] := by
    rw [hcs]
    intro h
    have h2 := congrArg List.length h
    rw [List.length_map, List.length_range, List.length_nil] at h2
    omega
  obtain ⟨hmem, hle⟩ := specMin_spec cs hcsne
  obtain ⟨hidx, hval, hbefore⟩ := firstIdxOf_spec (specMin cs) cs hmem
  have hlen : cs.length = paths.length := by rw [hcs]; simp
  have hpick : specPick paths alloc = firstIdxOf (specMin cs) cs := rfl
  rw [hpick]
  have hi := hlen ▸ hidx
  have hgetD : ∀ k < paths.length, cs.getD k 0 = c k := fun k hk =>
    getD_map_range c paths.length k hk
  have hcvali : c (firstIdxOf (specMin cs) cs) = specMin cs := by
    rw [← hgetD _ hi, hval]
  refine ⟨hi, ?_, ?_⟩
  · intro k hk
    rw [hcvali]
    exact hle (c k) (by rw [hcs]; exact List.mem_map_of_mem c (List.mem_range.mpr hk))
  · intro k hk
    have hkn : k < paths.length := lt_trans hk hi
    have h1 : cs.getD k 0 ≠ specMin cs := hbefore k hk
    have h2 : specMin cs ≤ c k := hle (c k)
      (by rw [hcs]; exact List.mem_map_of_mem c (List.mem_range.mpr hkn))
    rw [hcvali]
    rw [hgetD k hkn] at h1
    omega

theorem costsOf_eq_map_specCost (paths : List (List String)) (alloc : List Int) :
    costsOf paths alloc
      = (List.range paths.length).map (fun j => (⟨j, specCost paths alloc j⟩ : PathCost)) := rfl

theorem assignOne_eq_spec (paths : List (List String)) (alloc : List Int)
    (hne : paths ≠ []) : assignOne paths alloc = specAssignOne paths alloc := by
  have hn : 1 ≤ paths.length := by
    cases paths with
    | nil => exact absurd rfl hne
    | cons p ps => simp
  obtain ⟨j0, hfold, hlt, hmin, hstrict⟩ :=
    minFold_range_argmin (specCost paths alloc) paths.length hn
  obtain ⟨hpi, hpmin, hpstrict⟩ := specPick_argmin paths alloc hne
  have hj0 : j0 = specPick paths alloc :=
    argmin_unique (specCost paths alloc) paths.length j0 (specPick paths alloc)
      hlt hpi hmin hstrict hpmin hpstrict
  have hhead : (sortSlice (costsOf paths alloc)).head? = some ⟨j0, specCost paths alloc j0⟩ := by
    rw [sortSlice_head_eq, costsOf_eq_map_specCost, hfold]
  rw [assignOne, hhead, specAssignOne, ← hj0]

theorem assignLoop_eq_spec (paths : List (List String)) (hne : paths ≠ []) :
    ∀ (n : Nat) (alloc : List Int),
    assignLoop paths n alloc = specAssignLoop paths n alloc := by
  intro n
  induction n with
  | zero => intro alloc; rfl
  | succ n ih =>
    intro alloc
    rw [assignLoop, specAssignLoop, assignOne_eq_spec paths alloc hne, ih]

/-! #### Bridging the in-place insertion sort of pdqsort to the
functional stable insertion sort, for slices of at most twelve elements -/

theorem insertPC_length (x : PathCost) : ∀ s : List PathCost,
    (insertPC x s).length = s.length + 1 := by
  intro s
  induction s with
  | nil => rfl
  | cons y ys ih =>
    rw [insertPC]
    by_cases h : x.cost < y.cost
    · rw [if_pos h]; rfl
    · rw [if_neg h]; simp [ih]

theorem insertPC_all_le (x : PathCost) : ∀ s : List PathCost,
    (∀ z ∈ s, ¬ x.cost < z.cost) → insertPC x s = s ++ [x] := by
  intro s
  induction s with
  | nil => intro _; rfl
  | cons y ys ih =>
    intro h
    rw [insertPC, if_neg (h y (List.mem_cons_self _ _))]
    rw [ih (fun z hz => h z (List.mem_cons_of_mem _ hz))]
    rfl

theorem insertPC_append_big (x y : PathCost) (h : x.cost < y.cost) :
    ∀ s : List PathCost, insertPC x (s ++ [y]) = insertPC x s ++ [y] := by
  intro s
  induction s with
  | nil => simp [insertPC, h]
  | cons z zs ih =>
    rw [List.cons_append, insertPC, insertPC]
    by_cases hz : x.cost < z.cost
    · rw [if_pos hz, if_pos hz]; rfl
    · rw [if_neg hz, if_neg hz, ih]; rfl

theorem insertPC_pairwise (x : PathCost) : ∀ s : List PathCost,
    List.Pairwise (fun p q : PathCost => p.cost ≤ q.cost) s →
    List.Pairwise (fun p q : PathCost => p.cost ≤ q.cost) (insertPC x s) := by
  intro s
  induction s with
  | nil => intro _; exact List.pairwise_singleton _ _
  | cons y ys ih =>
    intro hp
    rw [List.pairwise_cons] at hp
    rw [insertPC]
    by_cases h : x.cost < y.cost
    · rw [if_pos h]
      refine List.pairwise_cons.mpr ⟨?_, List.pairwise_cons.mpr hp⟩
      intro z hz
      rcases List.mem_cons.mp hz with rfl | hz2
      · exact le_of_lt h
      · exact le_trans (le_of_lt h) (hp.1 z hz2)
    · rw [if_neg h]
      refine List.pairwise_cons.mpr ⟨?_, ih hp.2⟩
      intro z hz
      have hzm : z = x ∨ z ∈ ys :=
        List.mem_cons.mp ((insertPC_perm x ys).mem_iff.mp hz)
      rcases hzm with rfl | hz2
      · exact Int.not_lt.mp h
      · exact hp.1 z hz2

theorem getD_append_nth (u v : List PathCost) (n : Nat) :
    (u ++ v).getD (u.length + n) pcD = v.getD n pcD := by
  induction u with
  | nil => simp
  | cons w u2 ih =>
    have h1 : (w :: u2).length + n = (u2.length + n) + 1 := by
      simp only [List.length_cons]; omega
    rw [h1, List.cons_append, List.getD_cons_succ, ih]

theorem swapPC_cons (w : PathCost) (l : List PathCost) (i j : Nat) :
    swapPC (w :: l) (i + 1) (j + 1) = w :: swapPC l i j := by
  simp [swapPC, List.set_cons_succ, List.getD_cons_succ]

theorem swapPC_adjacent (y x : PathCost) : ∀ (u r : List PathCost),
    swapPC (u ++ y :: x :: r) (u.length + 1) u.length = u ++ x :: y :: r := by
  intro u
  induction u with
  | nil =>
    intro r
    rfl
  | cons w u2 ih =>
    intro r
    show swapPC (w :: (u2 ++ y :: x :: r)) (u2.length + 1 + 1) (u2.length + 1)
      = w :: (u2 ++ x :: y :: r)
    rw [swapPC_cons, ih]

theorem lessPC_adj (u : List PathCost) (y x : PathCost) (r : List PathCost) :
    lessPC (u ++ y :: x :: r) (u.length + 1) u.length = decide (x.cost < y.cost) := by
  rw [lessPC]
  have h0 : (u ++ y :: x :: r).getD u.length pcD = y := by
    have h := getD_append_nth u (y :: x :: r) 0
    simpa using h
  have h1 : (u ++ y :: x :: r).getD (u.length + 1) pcD = x := by
    have h := getD_append_nth u (y :: x :: r) 1
    simpa using h
  rw [h0, h1]

theorem insBubble_spec (x : PathCost) :
    ∀ (s r : List PathCost),
    List.Pairwise (fun p q : PathCost => p.cost ≤ q.cost) s →
    insBubble 0 s.length (s ++ x :: r) = insertPC x s ++ r := by
  intro s
  induction s using List.reverseRecOn with
  | nil => intro r _; rfl
  | append_singleton s2 y ih =>
    intro r hpw
    have hlen : (s2 ++ [y]).length = s2.length + 1 := by simp
    have hlist : (s2 ++ [y]) ++ x :: r = s2 ++ y :: x :: r := by simp
    rw [hlen, hlist, insBubble]
    by_cases hxy : x.cost < y.cost
    · have hc : (decide (0 < s2.length + 1)
          && lessPC (s2 ++ y :: x :: r) (s2.length + 1) s2.length) = true := by
        rw [lessPC_adj]
        simp [hxy]
      rw [hc, if_pos rfl, swapPC_adjacent y x s2 r]
      rw [ih (y :: r) (hpw.sublist (List.sublist_append_left _ _))]
      rw [insertPC_append_big x y hxy s2, List.append_assoc]
      rfl
    · have hc : (decide (0 < s2.length + 1)
          && lessPC (s2 ++ y :: x :: r) (s2.length + 1) s2.length) = false := by
        rw [lessPC_adj]
        simp [hxy]
      rw [hc]
      simp only [Bool.false_eq_true, if_false]
      have hall : ∀ z ∈ s2 ++ [y], ¬ x.cost < z.cost := by
        intro z hz
        rcases List.mem_append.mp hz with hz2 | hz2
        · have hzy : z.cost ≤ y.cost :=
            (List.pairwise_append.mp hpw).2.2 z hz2 y (List.mem_singleton_self _)
          have hyx : y.cost ≤ x.cost := Int.not_lt.mp hxy
          omega
        · have hzy : z = y := by simpa using hz2
          subst hzy
          exact hxy
      rw [insertPC_all_le x _ hall]
      simp

theorem insLoopGo_spec :
    ∀ (rest s : List PathCost),
    List.Pairwise (fun p q : PathCost => p.cost ≤ q.cost) s →
    insLoopGo 0 s.length rest.length (s ++ rest)
      = rest.foldl (fun acc x => insertPC x acc) s := by
  intro rest
  induction rest with
  | nil => intro s _; simp [insLoopGo]
  | cons x r2 ih =>
    intro s hpw
    rw [List.length_cons, insLoopGo]
    rw [insBubble_spec x s r2 hpw]
    rw [show s.length + 1 = (insertPC x s).length from (insertPC_length x s).symm]
    rw [ih (insertPC x s) (insertPC_pairwise x s hpw)]
    rfl

theorem insertionSortGo_eq_sortSlice (l : List PathCost) :
    insertionSortGo l 0 l.length = sortSlice l := by
  cases l with
  | nil => rfl
  | cons x r =>
    rw [insertionSortGo]
    have h1 : (x :: r).length - (0 + 1) = r.length := by simp
    rw [h1]
    have h2 : insLoopGo 0 (0 + 1) r.length (x :: r)
        = insLoopGo 0 [x].length r.length ([x] ++ r) := rfl
    rw [h2, insLoopGo_spec r [x] (List.pairwise_singleton _ _)]
    rfl

theorem sortSliceGo_le12 (l : List PathCost) (h : l.length ≤ 12) :
    sortSliceGo l = some (sortSlice l) := by
  rw [sortSliceGo]
  simp only [pdqsortGo]
  rw [if_pos (by simpa using h)]
  rw [insertionSortGo_eq_sortSlice]

theorem assignOneGo_le12 (paths : List (List String)) (alloc : List Int)
    (h : paths.length ≤ 12) :
    assignOneGo paths alloc = some (assignOne paths alloc) := by
  have hlen : (costsOf paths alloc).length ≤ 12 := by
    simpa [costsOf] using h
  simp only [assignOneGo, sortSliceGo_le12 _ hlen, assignOne]
  cases (sortSlice (costsOf paths alloc)).head? <;> rfl

theorem assignLoopGo_le12 (paths : List (List String)) (h : paths.length ≤ 12) :
    ∀ (n : Nat) (alloc : List Int),
    assignLoopGo paths n alloc = some (assignLoop paths n alloc) := by
  intro n
  induction n with
  | zero => intro alloc; rfl
  | succ n ih =>
    intro alloc
    rw [assignLoopGo, assignLoop, assignOneGo_le12 paths alloc h]
    exact ih (assignOne paths alloc)

theorem AssignAntsGo_le12 (antCount : Int) (paths : List (List String))
    (h : paths.length ≤ 12) :
    AssignAntsGo antCount paths = some (AssignAnts antCount paths) := by
  rw [AssignAntsGo, assignLoopGo_le12 paths h]
  rfl

/-- C2 fails as stated at thirteen routes: sort.Slice dispatches slices of
thirteen or more elements to the non-stable part of pdqsort, and on the
cost slice 5, 5, 1, 9, 9, 9, 1, 9, 9, 9, 9, 9, 9 the quicksort
partitioning places the record of route 6 ahead of the equally cheap
route 2, so the code assigns the token to route 6 while the smallest-index
tie-break of the claim picks route 2.  AssignAntsGo is the embedding of
AssignAnts over the full sort.Slice implementation; the third conjunct
records that the two routes genuinely tie. -/
theorem C2_tiebreak_counterexample :
    AssignAntsGo 1 tiePaths
      = some ⟨tiePaths, [0, 0, 0, 0, 0, 0, 1, 0, 0, 0, 0, 0, 0]⟩
    ∧ AssignAntsSpec 1 tiePaths
      = ⟨tiePaths, [0, 0, 1, 0, 0, 0, 0, 0, 0, 0, 0, 0, 0]⟩
    ∧ specCost tiePaths (List.replicate 13 0) 2
      = specCost tiePaths (List.replicate 13 0) 6 :=
  ⟨by decide, by decide, by decide⟩

/-- C2 as amended by the counterexample: on route lists of at most twelve
routes, where sort.Slice dispatches every cost slice to its stable
insertion sort, AssignAnts gives each token the route minimizing
cost r = length r + assignedSoFar r - 1 and on ties selects the route
with the smallest index, matching the spec-modelled scheduler; and for
exactly two routes of lengths 4 and 6 with 3 tokens the final allocation
is 3, 0.  Stated over AssignAntsGo, the embedding of AssignAnts with the
full sort.Slice implementation. -/
theorem C2_greedy_min_cost_tiebreak :
    (∀ (antCount : Int) (paths : List (List String)), 0 ≤ antCount → paths ≠ [] →
      paths.length ≤ 12 →
      AssignAntsGo antCount paths = some (AssignAntsSpec antCount paths))
    ∧ AssignAntsGo 3 [["s", "2", "3", "e"], ["s", "a", "b", "c", "d", "e"]]
      = some ⟨[["s", "2", "3", "e"], ["s", "a", "b", "c", "d", "e"]], [3, 0]⟩ := by
  constructor
  · intro antCount paths _ hne h12
    rw [AssignAntsGo_le12 antCount paths h12]
    have hrw : AssignAnts antCount paths = AssignAntsSpec antCount paths := by
      show (⟨paths, _⟩ : PathAssignment) = ⟨paths, _⟩
      rw [assignLoop_eq_spec paths hne]
    rw [hrw]
  · decide

/-- Witness for the amended C2 at a concrete input. -/
theorem C2_greedy_min_cost_tiebreak_witness :
    AssignAntsGo 4 [["s", "m", "e"], ["s", "e"]]
      = some (AssignAntsSpec 4 [["s", "m", "e"], ["s", "e"]]) :=
  C2_greedy_min_cost_tiebreak.1 4 [["s", "m", "e"], ["s", "e"]]
    (by decide) (by decide) (by decide)

/-! ### Simulation per-turn lemmas -/

theorem getD_set_self (l : List Int) :
    ∀ (j : Nat) (v : Int), j < l.length → (l.set j v).getD j 0 = v := by
  induction l with
  | nil => intro j v hj; simp at hj
  | cons a t ih =>
    intro j v hj
    cases j with
    | zero => rfl
    | succ j =>
      rw [List.set_cons_succ, List.getD_cons_succ]
      exact ih j v (by simpa using hj)

theorem getD_set_ne (l : List Int) :
    ∀ (j i : Nat) (v : Int), i ≠ j → (l.set j v).getD i 0 = l.getD i 0 := by
  induction l with
  | nil => intro j i v _; rfl
  | cons a t ih =>
    intro j i v h
    cases j with
    | zero =>
      cases i with
      | zero => exact absurd rfl h
      | succ i => rfl
    | succ j =>
      cases i with
      | zero => rfl
      | succ i =>
        rw [List.set_cons_succ, List.getD_cons_succ, List.getD_cons_succ]
        exact ih j i v (fun he => h (by rw [he]))

theorem set_oob (l : List Int) :
    ∀ (j : Nat) (v : Int), l.length ≤ j → l.set j v = l := by
  induction l with
  | nil => intro j v _; rfl
  | cons a t ih =>
    intro j v hj
    cases j with
    | zero => simp at hj
    | succ j =>
      rw [List.set_cons_succ, ih j v (by simpa using hj)]

theorem getD_mem_of_lt (l : List Int) :
    ∀ j : Nat, j < l.length → l.getD j 0 ∈ l := by
  induction l with
  | nil => intro j hj; simp at hj
  | cons a t ih =>
    intro j hj
    cases j with
    | zero => exact List.mem_cons_self _ _
    | succ j =>
      rw [List.getD_cons_succ]
      exact List.mem_cons_of_mem _ (ih j (by simpa using hj))

theorem isRoomOccupied_false_iff (l : List Int) (v : Int) :
    isRoomOccupied l v = false ↔ ∀ p ∈ l, p ≠ v := by
  rw [isRoomOccupied]
  simp [List.any_eq_false]

theorem antStep_cases (p : List String) (ids old : List Int) (j : Nat)
    (st : List Move × List Int) :
    antStep p ids old j st = st
    ∨ (old.getD j 0 = -1 ∧ isRoomOccupied st.2 1 = false
        ∧ ∃ mv, antStep p ids old j st = (st.1 ++ [mv], st.2.set j 1))
    ∨ (old.getD j 0 ≠ -1 ∧ old.getD j 0 < (p.length : Int) - 1
        ∧ (old.getD j 0 + 1 = (p.length : Int) - 1
            ∨ isRoomOccupied st.2 (old.getD j 0 + 1) = false)
        ∧ ∃ mv, antStep p ids old j st = (st.1 ++ [mv], st.2.set j (old.getD j 0 + 1))) := by
  rw [antStep]
  by_cases h1 : old.getD j 0 = -1
  · rw [if_pos h1]
    by_cases h2 : isRoomOccupied st.2 1 = true
    · rw [if_pos h2]; left; rfl
    · rw [if_neg h2]
      right; left
      exact ⟨h1, by simpa using h2, _, rfl⟩
  · rw [if_neg h1]
    by_cases h2 : old.getD j 0 < (p.length : Int) - 1
    · rw [if_pos h2]
      by_cases h3 : old.getD j 0 + 1 = (p.length : Int) - 1
          ∨ isRoomOccupied st.2 (old.getD j 0 + 1) = false
      · rw [if_pos h3]
        right; right
        exact ⟨h1, h2, h3, _, rfl⟩
      · rw [if_neg h3]; left; rfl
    · rw [if_neg h2]; left; rfl

theorem injectDirect_spec (room1 : String) (ids : List Int) :
    ∀ (positions : List Int) (j : Nat),
    injectDirect room1 ids positions j = ([], positions)
    ∨ ∃ i mv, i < positions.length ∧ positions.getD i 0 = -1
        ∧ injectDirect room1 ids positions j = ([mv], positions.set i 1) := by
  intro positions
  induction positions with
  | nil => intro j; left; rfl
  | cons p ps ih =>
    intro j
    rw [injectDirect]
    by_cases hp : p = -1
    · right
      refine ⟨0, ⟨ids.getD j 0, room1⟩, by simp, by simpa using hp, ?_⟩
      rw [if_pos hp]
      rfl
    · rw [if_neg hp]
      rcases ih (j + 1) with h | ⟨i, mv, hi, hval, heq⟩
      · left
        rw [h]
      · right
        refine ⟨i + 1, mv, by simpa using hi, by simpa using hval, ?_⟩
        rw [heq]
        simp [List.set_cons_succ]

/-- The invariant of the reverse ant loop: entering with counter c, pending
positions (indices below c) still at their turn-start snapshot values, the
loop appends some moves and leaves every pending position either unchanged,
injected to 1 from the sentinel, or advanced by one below the final index;
positions at or above the counter are untouched, and no move is appended
exactly when no pending position changes. -/
theorem antLoop_spec (p : List String) (ids old : List Int) :
    ∀ (c : Nat) (ms : List Move) (cur : List Int),
    cur.length = old.length → c ≤ old.length →
    (∀ i, i < c → cur.getD i 0 = old.getD i 0) →
    ∃ extra newPos,
      antLoop p ids old c (ms, cur) = (ms ++ extra, newPos)
      ∧ newPos.length = old.length
      ∧ (∀ i, c ≤ i → newPos.getD i 0 = cur.getD i 0)
      ∧ (∀ i, i < c →
          newPos.getD i 0 = old.getD i 0
          ∨ (old.getD i 0 = -1 ∧ newPos.getD i 0 = 1)
          ∨ (old.getD i 0 ≠ -1 ∧ old.getD i 0 < (p.length : Int) - 1
             ∧ newPos.getD i 0 = old.getD i 0 + 1))
      ∧ (extra = [] ↔ ∀ i, i < c → newPos.getD i 0 = old.getD i 0) := by
  intro c
  induction c with
  | zero =>
    intro ms cur hlen _ _
    exact ⟨[], cur, by simp [antLoop], hlen, fun i _ => rfl,
      fun i hi => absurd hi (Nat.not_lt_zero i),
      ⟨fun _ i hi => absurd hi (Nat.not_lt_zero i), fun _ => rfl⟩⟩
  | succ c ih =>
    intro ms cur hlen hc hpend
    rw [antLoop]
    rcases antStep_cases p ids old c (ms, cur) with hstep | ⟨h1, _, mv, hstep⟩
        | ⟨h1, h2, _, mv, hstep⟩
    · rw [hstep]
      obtain ⟨extra, newPos, heq, hlen', hhigh, hmid, hext⟩ :=
        ih ms cur hlen (by omega) (fun i hi => hpend i (by omega))
      have hcc : newPos.getD c 0 = old.getD c 0 := by
        rw [hhigh c (le_refl c)]
        exact hpend c (by omega)
      refine ⟨extra, newPos, heq, hlen', fun i hi => hhigh i (by omega), ?_, ?_⟩
      · intro i hi
        by_cases hic : i < c
        · exact hmid i hic
        · have hiceq : i = c := by omega
          subst hiceq
          left; exact hcc
      · constructor
        · intro hx i hi
          by_cases hic : i < c
          · exact (hext.mp hx) i hic
          · have hiceq : i = c := by omega
            subst hiceq; exact hcc
        · intro hall
          exact hext.mpr (fun i hi => hall i (by omega))
    · rw [hstep]
      have hlt : c < cur.length := by omega
      obtain ⟨extra, newPos, heq, hlen', hhigh, hmid, hext⟩ :=
        ih (ms ++ [mv]) (cur.set c 1) (by rw [List.length_set]; exact hlen) (by omega)
          (fun i hi => by
            rw [getD_set_ne _ _ _ _ (by omega)]; exact hpend i (by omega))
      have hcc : newPos.getD c 0 = 1 := by
        rw [hhigh c (le_refl c), getD_set_self _ _ _ hlt]
      refine ⟨mv :: extra, newPos, ?_, hlen', ?_, ?_, ?_⟩
      · rw [heq]; simp
      · intro i hi
        rw [hhigh i (by omega), getD_set_ne _ _ _ _ (by omega)]
      · intro i hi
        by_cases hic : i < c
        · exact hmid i hic
        · have hiceq : i = c := by omega
          subst hiceq
          right; left; exact ⟨h1, hcc⟩
      · constructor
        · intro hx; cases hx
        · intro hall
          exfalso
          have hbad := hall c (by omega)
          rw [hcc, h1] at hbad
          omega
    · rw [hstep]
      have hlt : c < cur.length := by omega
      obtain ⟨extra, newPos, heq, hlen', hhigh, hmid, hext⟩ :=
        ih (ms ++ [mv]) (cur.set c (old.getD c 0 + 1))
          (by rw [List.length_set]; exact hlen) (by omega)
          (fun i hi => by
            rw [getD_set_ne _ _ _ _ (by omega)]; exact hpend i (by omega))
      have hcc : newPos.getD c 0 = old.getD c 0 + 1 := by
        rw [hhigh c (le_refl c), getD_set_self _ _ _ hlt]
      refine ⟨mv :: extra, newPos, ?_, hlen', ?_, ?_, ?_⟩
      · rw [heq]; simp
      · intro i hi
        rw [hhigh i (by omega), getD_set_ne _ _ _ _ (by omega)]
      · intro i hi
        by_cases hic : i < c
        · exact hmid i hic
        · have hiceq : i = c := by omega
          subst hiceq
          right; right; exact ⟨h1, h2, hcc⟩
      · constructor
        · intro hx; cases hx
        · intro hall
          exfalso
          have hbad := hall c (by omega)
          rw [hcc] at hbad
          omega

/-- The per-path turn action characterized: the recorded moves and the new
positions, each position unchanged, injected from the sentinel to 1, or
advanced by one while below the final index; no move is recorded exactly
when nothing changed. -/
theorem processTurnPath_spec (sim : PathSim) :
    ∃ ms newPos,
      processTurnPath sim = (ms, { sim with positions := newPos })
      ∧ newPos.length = sim.positions.length
      ∧ (∀ i, i < sim.positions.length →
          newPos.getD i 0 = sim.positions.getD i 0
          ∨ (sim.positions.getD i 0 = -1 ∧ newPos.getD i 0 = 1)
          ∨ (sim.positions.getD i 0 ≠ -1
             ∧ sim.positions.getD i 0 < (sim.path.length : Int) - 1
             ∧ newPos.getD i 0 = sim.positions.getD i 0 + 1))
      ∧ (ms = [] ↔ ∀ i, i < sim.positions.length →
            newPos.getD i 0 = sim.positions.getD i 0) := by
  rw [processTurnPath]
  by_cases h2 : sim.path.length = 2
  · rw [if_pos h2]
    rcases injectDirect_spec (sim.path.getD 1 "") sim.antIDs sim.positions 0 with
      h | ⟨i0, mv, hi0, hval, h⟩
    · rw [h]
      exact ⟨[], sim.positions, rfl, rfl, fun i _ => Or.inl rfl,
        ⟨fun _ i _ => rfl, fun _ => rfl⟩⟩
    · rw [h]
      refine ⟨[mv], sim.positions.set i0 1, rfl, by rw [List.length_set], ?_, ?_⟩
      · intro i hi
        by_cases hii : i = i0
        · subst hii
          right; left
          exact ⟨hval, getD_set_self _ _ _ hi0⟩
        · left
          exact getD_set_ne _ _ _ _ hii
      · constructor
        · intro hx; cases hx
        · intro hall
          exfalso
          have hbad := hall i0 hi0
          rw [getD_set_self _ _ _ hi0, hval] at hbad
          omega
  · rw [if_neg h2]
    obtain ⟨extra, newPos, heq, hlen', hhigh, hmid, hext⟩ :=
      antLoop_spec sim.path sim.antIDs sim.positions sim.positions.length []
        sim.positions rfl (le_refl _) (fun _ _ => rfl)
    rw [heq]
    exact ⟨extra, newPos, by simp, hlen', hmid, hext⟩

theorem potential_cons (a : Int) (t : List Int) :
    potential (a :: t) = a.toNat + potential t := by
  simp [potential]

theorem potential_mono : ∀ l l' : List Int, l.length = l'.length →
    (∀ i, i < l.length → l.getD i 0 ≤ l'.getD i 0) →
    potential l ≤ potential l' := by
  intro l
  induction l with
  | nil =>
    intro l' hlen _
    cases l' with
    | nil => exact le_refl _
    | cons b t' => simp at hlen
  | cons a t ih =>
    intro l' hlen hle
    cases l' with
    | nil => simp at hlen
    | cons b t' =>
      rw [potential_cons, potential_cons]
      have h0 : a ≤ b := by simpa using hle 0 (by simp)
      have hrec := ih t' (by simpa using hlen)
        (fun i hi => by simpa using hle (i + 1) (by simpa using hi))
      omega

theorem potential_strict : ∀ l l' : List Int, l.length = l'.length →
    (∀ i, i < l.length → l.getD i 0 ≤ l'.getD i 0) →
    (∃ i, i < l.length ∧ l.getD i 0 < l'.getD i 0 ∧ 1 ≤ l'.getD i 0) →
    potential l < potential l' := by
  intro l
  induction l with
  | nil =>
    intro l' _ _ hex
    obtain ⟨i, hi, _⟩ := hex
    simp at hi
  | cons a t ih =>
    intro l' hlen hle hex
    cases l' with
    | nil => simp at hlen
    | cons b t' =>
      rw [potential_cons, potential_cons]
      have h0 : a ≤ b := by simpa using hle 0 (by simp)
      obtain ⟨i, hi, hlt, h1b⟩ := hex
      cases i with
      | zero =>
        have hlt0 : a < b := by simpa using hlt
        have h1b0 : (1 : Int) ≤ b := by simpa using h1b
        have hrec := potential_mono t t' (by simpa using hlen)
          (fun k hk => by simpa using hle (k + 1) (by simpa using hk))
        omega
      | succ i =>
        have hrec := ih t' (by simpa using hlen)
          (fun k hk => by simpa using hle (k + 1) (by simpa using hk))
          ⟨i, by simpa using hi, by simpa using hlt, by simpa using h1b⟩
        omega

theorem potential_le_bound : ∀ (l : List Int) (B : Nat),
    (∀ i, i < l.length → l.getD i 0 ≤ (B : Int)) →
    potential l ≤ B * l.length := by
  intro l
  induction l with
  | nil => intro B _; simp [potential]
  | cons a t ih =>
    intro B hle
    rw [potential_cons]
    have h0 : a ≤ (B : Int) := by simpa using hle 0 (by simp)
    have hrec := ih B (fun i hi => by simpa using hle (i + 1) (by simpa using hi))
    simp only [List.length_cons]
    have : B * (t.length + 1) = B * t.length + B := by ring
    omega

/-- Per-path turn facts under the state invariant: shape preserved, the
invariant preserved, the potential does not decrease, and it strictly
increases when a move is recorded. -/
theorem processTurnPath_valid (sim : PathSim)
    (h2 : 2 ≤ sim.path.length)
    (hv : ∀ i, i < sim.positions.length →
        -1 ≤ sim.positions.getD i 0
        ∧ sim.positions.getD i 0 ≤ (sim.path.length : Int) - 1) :
    ∃ ms sim', processTurnPath sim = (ms, sim')
    ∧ sim'.path = sim.path ∧ sim'.antIDs = sim.antIDs
    ∧ sim'.positions.length = sim.positions.length
    ∧ (∀ i, i < sim'.positions.length →
        -1 ≤ sim'.positions.getD i 0
        ∧ sim'.positions.getD i 0 ≤ (sim'.path.length : Int) - 1)
    ∧ potential sim.positions ≤ potential sim'.positions
    ∧ (ms ≠ [] → potential sim.positions < potential sim'.positions) := by
  obtain ⟨ms, newPos, heq, hlen, hmid, hiff⟩ := processTurnPath_spec sim
  have hpt : ∀ i, i < sim.positions.length →
      sim.positions.getD i 0 ≤ newPos.getD i 0 := by
    intro i hi
    rcases hmid i hi with h | ⟨ho, hn⟩ | ⟨_, _, hn⟩
    · omega
    · rw [ho, hn]; omega
    · omega
  have hvalid' : ∀ i, i < newPos.length →
      -1 ≤ newPos.getD i 0 ∧ newPos.getD i 0 ≤ (sim.path.length : Int) - 1 := by
    intro i hi
    rw [hlen] at hi
    rcases hmid i hi with h | ⟨ho, hn⟩ | ⟨ho, hb, hn⟩
    · rw [h]; exact hv i hi
    · rw [hn]
      constructor
      · omega
      · omega
    · rw [hn]
      have := (hv i hi).1
      constructor <;> omega
  refine ⟨ms, _, heq, rfl, rfl, hlen, hvalid', ?_, ?_⟩
  · exact potential_mono _ _ hlen.symm hpt
  · intro hms
    have hnall : ¬ ∀ i, i < sim.positions.length →
        newPos.getD i 0 = sim.positions.getD i 0 := fun hall => hms (hiff.mpr hall)
    push_neg at hnall
    obtain ⟨i, hi, hne⟩ := hnall
    refine potential_strict _ _ hlen.symm hpt ⟨i, hi, ?_, ?_⟩
    · show sim.positions.getD i 0 < newPos.getD i 0
      rcases hmid i hi with h | ⟨ho, hn⟩ | ⟨ho, hb, hn⟩
      · exact absurd h hne
      · rw [ho, hn]; omega
      · omega
    · show (1 : Int) ≤ newPos.getD i 0
      rcases hmid i hi with h | ⟨ho, hn⟩ | ⟨ho, hb, hn⟩
      · exact absurd h hne
      · rw [hn]
      · have := (hv i hi).1
        omega

/-- One whole turn under the state invariant. -/
theorem processTurn_valid : ∀ sims : List PathSim, ValidSims sims →
    ∃ ms sims', processTurn sims = (ms, sims')
    ∧ ValidSims sims'
    ∧ simsBound sims' = simsBound sims
    ∧ potentialAll sims ≤ potentialAll sims'
    ∧ (ms ≠ [] → potentialAll sims < potentialAll sims') := by
  intro sims
  induction sims with
  | nil =>
    intro _
    exact ⟨[], [], rfl, fun s hs => absurd hs (List.not_mem_nil s), rfl, le_refl _,
      fun h => absurd rfl h⟩
  | cons sim rest ih =>
    intro hv
    obtain ⟨hv1, hv2⟩ := hv sim (List.mem_cons_self _ _)
    obtain ⟨ms, sim', heq, hpath, hids, hlen, hvalid', hmono, hstrict⟩ :=
      processTurnPath_valid sim hv1 hv2
    obtain ⟨msr, rest', heqr, hvr, hbr, hmr, hsr⟩ :=
      ih (fun s hs => hv s (List.mem_cons_of_mem _ hs))
    refine ⟨ms ++ msr, sim' :: rest', by rw [processTurn, heq, heqr], ?_, ?_, ?_, ?_⟩
    · intro s hs
      rcases List.mem_cons.mp hs with rfl | hs'
      · exact ⟨hpath ▸ hv1, hvalid'⟩
      · exact hvr s hs'
    · simp only [simsBound, List.map_cons, List.sum_cons]
      have hb1 : (sim'.path.length - 1) * sim'.positions.length
          = (sim.path.length - 1) * sim.positions.length := by
        rw [hpath, hlen]
      rw [hb1]
      have : simsBound rest' = simsBound rest := hbr
      simp only [simsBound] at this
      omega
    · simp only [potentialAll, List.map_cons, List.sum_cons]
      have : potentialAll rest ≤ potentialAll rest' := hmr
      simp only [potentialAll] at this
      omega
    · intro hne
      simp only [potentialAll, List.map_cons, List.sum_cons]
      have hmr' : potentialAll rest ≤ potentialAll rest' := hmr
      simp only [potentialAll] at hmr'
      by_cases hms : ms = []
      · subst hms
        have hmsr : msr ≠ [] := by simpa using hne
        have := hsr hmsr
        simp only [potentialAll] at this
        omega
      · have := hstrict hms
        omega

theorem potentialAll_le_simsBound : ∀ sims : List PathSim, ValidSims sims →
    potentialAll sims ≤ simsBound sims := by
  intro sims
  induction sims with
  | nil => intro _; exact le_refl _
  | cons sim rest ih =>
    intro hv
    obtain ⟨hv1, hv2⟩ := hv sim (List.mem_cons_self _ _)
    have h1 : potential sim.positions
        ≤ (sim.path.length - 1) * sim.positions.length := by
      apply potential_le_bound
      intro i hi
      have := (hv2 i hi).2
      omega
    have h2 := ih (fun s hs => hv s (List.mem_cons_of_mem _ hs))
    simp only [potentialAll, simsBound, List.map_cons, List.sum_cons]
    simp only [potentialAll, simsBound] at h2
    omega

/-- The simulation loop halts within the potential budget: with enough fuel
it returns a trace whose length plus the current potential stays below the
bound. -/
theorem simulateLoop_bounded : ∀ (fuel : Nat) (sims : List PathSim),
    ValidSims sims → simsBound sims < fuel + potentialAll sims →
    ∃ tr, simulateLoop fuel sims = some tr
      ∧ tr.length + potentialAll sims ≤ simsBound sims := by
  intro fuel
  induction fuel with
  | zero =>
    intro sims hv hb
    have := potentialAll_le_simsBound sims hv
    omega
  | succ fuel ih =>
    intro sims hv hb
    obtain ⟨ms, sims', heq, hv', hband, hmono, hstrict⟩ := processTurn_valid sims hv
    rw [simulateLoop, heq]
    by_cases hms : ms = []
    · subst hms
      refine ⟨[], by simp, ?_⟩
      have hps := potentialAll_le_simsBound sims hv
      simp only [List.length_nil]
      omega
    · have hstep := hstrict hms
      obtain ⟨tr, htr, hlen⟩ := ih sims' hv' (by omega)
      rw [htr]
      simp only [if_neg hms]
      exact ⟨ms :: tr, rfl, by simp only [List.length_cons]; omega⟩

theorem initSimLoop_spec : ∀ (ps : List (List String)) (counts : List Int) (ctr : Int),
    ∀ s ∈ initSimLoop ps counts ctr,
    s.path ∈ ps ∧ ∃ k : Nat, s.positions = List.replicate k (-1) := by
  intro ps
  induction ps with
  | nil => intro counts ctr s hs; simp [initSimLoop] at hs
  | cons p rest ih =>
    intro counts ctr s hs
    rw [initSimLoop] at hs
    rcases List.mem_cons.mp hs with rfl | hs'
    · exact ⟨List.mem_cons_self _ _, _, rfl⟩
    · obtain ⟨hp, hk⟩ := ih counts.tail _ s hs'
      exact ⟨List.mem_cons_of_mem _ hp, hk⟩

theorem getD_replicate (v : Int) : ∀ k i : Nat, i < k →
    (List.replicate k v).getD i 0 = v := by
  intro k
  induction k with
  | zero => intro i hi; omega
  | succ k ih =>
    intro i hi
    cases i with
    | zero => rfl
    | succ i =>
      rw [List.replicate_succ, List.getD_cons_succ]
      exact ih i (by omega)

theorem potential_replicate : ∀ k : Nat, potential (List.replicate k (-1)) = 0 := by
  intro k
  induction k with
  | zero => rfl
  | succ k ih =>
    rw [List.replicate_succ, potential_cons, ih]
    rfl

theorem potentialAll_init : ∀ (ps : List (List String)) (counts : List Int) (ctr : Int),
    potentialAll (initSimLoop ps counts ctr) = 0 := by
  intro ps
  induction ps with
  | nil => intro counts ctr; rfl
  | cons p rest ih =>
    intro counts ctr
    rw [initSimLoop]
    simp only [potentialAll, List.map_cons, List.sum_cons]
    rw [potential_replicate]
    have := ih counts.tail (ctr + (counts.headD 0).toNat)
    simp only [potentialAll] at this
    omega

theorem simsBound_init : ∀ (ps : List (List String)) (counts : List Int) (ctr : Int),
    simsBound (initSimLoop ps counts ctr) = potentialBound ps counts := by
  intro ps
  induction ps with
  | nil => intro counts ctr; rfl
  | cons p rest ih =>
    intro counts ctr
    rw [initSimLoop, potentialBound]
    simp only [simsBound, List.map_cons, List.sum_cons, List.length_replicate]
    have := ih counts.tail (ctr + (counts.headD 0).toNat)
    simp only [simsBound] at this
    omega

/-! ### C4: termination and the turn bound -/

/-- C4: for every route list (routes of at least two rooms, per the Route
data model) and allocation (componentwise non-negative, one count per
route), the simulation halts with a trace of at most the sum over routes of
(length - 1) times the allocated count. -/
theorem C4_termination_bound (pathList : List (List String)) (counts : List Int)
    (h2 : ∀ p ∈ pathList, 2 ≤ p.length) (hnn : ∀ c ∈ counts, 0 ≤ c)
    (hlen : counts.length = pathList.length) :
    ∃ tr, SimulateMultiPath pathList counts = some tr
      ∧ tr.length ≤ potentialBound pathList counts := by
  have hvinit : ValidSims (initSimulation pathList counts) := by
    intro s hs
    obtain ⟨hp, k, hpos⟩ := initSimLoop_spec pathList counts 1 s hs
    refine ⟨h2 _ hp, ?_⟩
    intro i hi
    rw [hpos] at hi ⊢
    rw [getD_replicate _ _ _ (by simpa using hi)]
    have := h2 _ hp
    constructor <;> omega
  have hpa : potentialAll (initSimulation pathList counts) = 0 :=
    potentialAll_init pathList counts 1
  have hsb : simsBound (initSimulation pathList counts)
      = potentialBound pathList counts :=
    simsBound_init pathList counts 1
  obtain ⟨tr, htr, hb⟩ := simulateLoop_bounded (potentialBound pathList counts + 1)
    (initSimulation pathList counts) hvinit (by omega)
  exact ⟨tr, htr, by omega⟩

/-- Witness for C4 at a concrete input. -/
theorem C4_termination_bound_witness :
    ∃ tr, SimulateMultiPath [["s", "m", "e"]] [2] = some tr
      ∧ tr.length ≤ potentialBound [["s", "m", "e"]] [2] :=
  C4_termination_bound [["s", "m", "e"]] [2] (by decide) (by decide) (by decide)

/-! ### C5: the occupancy invariant -/

/-- Writing a value that is either the final index or unoccupied preserves
the occupancy condition. -/
theorem PositionsOK_set (L : Nat) (l : List Int) (j : Nat) (v : Int)
    (hOK : PositionsOK L l)
    (hv : v = (L : Int) - 1 ∨ isRoomOccupied l v = false) :
    PositionsOK L (l.set j v) := by
  by_cases hj : j < l.length
  · intro i k hik hk hkeq
    rw [List.length_set] at hk
    by_cases hij : i = j
    · subst hij
      rw [getD_set_self _ _ _ hj] at hkeq ⊢
      have hkne : k ≠ i := fun he => absurd (he ▸ hik) (lt_irrefl _)
      rw [getD_set_ne _ _ _ _ hkne] at hkeq
      rcases hv with hv | hv
      · right; right; exact hv
      · exfalso
        exact (isRoomOccupied_false_iff l v).mp hv (l.getD k 0)
          (getD_mem_of_lt l k hk) hkeq.symm
    · by_cases hkj : k = j
      · subst hkj
        rw [getD_set_ne _ _ _ _ hij] at hkeq ⊢
        rw [getD_set_self _ _ _ hj] at hkeq
        rcases hv with hv | hv
        · right; right; rw [hkeq, hv]
        · exfalso
          have hil : i < l.length := lt_trans hik hj
          exact (isRoomOccupied_false_iff l v).mp hv (l.getD i 0)
            (getD_mem_of_lt l i hil) hkeq
      · rw [getD_set_ne _ _ _ _ hij] at hkeq ⊢
        rw [getD_set_ne _ _ _ _ hkj] at hkeq
        exact hOK i k hik hk hkeq
  · rw [set_oob l j v (le_of_not_lt hj)]
    exact hOK

/-- The reverse ant loop preserves the occupancy condition: every write is
either to the final index or into an index unoccupied in the evolving
positions. -/
theorem antLoop_preserves_OK (p : List String) (ids old : List Int) :
    ∀ (c : Nat) (ms : List Move) (cur : List Int),
    PositionsOK p.length cur →
    PositionsOK p.length (antLoop p ids old c (ms, cur)).2 := by
  intro c
  induction c with
  | zero => intro ms cur h; exact h
  | succ c ih =>
    intro ms cur h
    rw [antLoop]
    rcases antStep_cases p ids old c (ms, cur) with hstep | ⟨_, hocc, mv, hstep⟩
        | ⟨_, _, hg, mv, hstep⟩
    · rw [hstep]; exact ih ms cur h
    · rw [hstep]
      exact ih _ _ (PositionsOK_set _ _ _ _ h (Or.inr hocc))
    · rw [hstep]
      exact ih _ _ (PositionsOK_set _ _ _ _ h hg)

theorem processTurnPath_preserves_OK (sim : PathSim) (h : OccupancyOK sim) :
    OccupancyOK (processTurnPath sim).2 := by
  rw [processTurnPath]
  by_cases h2 : sim.path.length = 2
  · rw [if_pos h2]
    rcases injectDirect_spec (sim.path.getD 1 "") sim.antIDs sim.positions 0 with
      hd | ⟨i0, mv, hi0, hval, hd⟩
    · rw [hd]
      exact h
    · rw [hd]
      exact PositionsOK_set sim.path.length sim.positions i0 1 h
        (Or.inl (by rw [h2]; norm_num))
  · rw [if_neg h2]
    exact antLoop_preserves_OK sim.path sim.antIDs sim.positions
      sim.positions.length [] sim.positions h

theorem processTurn_mem : ∀ (sims : List PathSim) (s : PathSim),
    s ∈ (processTurn sims).2 → ∃ t ∈ sims, s = (processTurnPath t).2 := by
  intro sims
  induction sims with
  | nil => intro s hs; simp [processTurn] at hs
  | cons sim rest ih =>
    intro s hs
    simp only [processTurn] at hs
    rcases List.mem_cons.mp hs with rfl | hs'
    · exact ⟨sim, List.mem_cons_self _ _, rfl⟩
    · obtain ⟨t, ht, hteq⟩ := ih s hs'
      exact ⟨t, List.mem_cons_of_mem _ ht, hteq⟩

/-- C5: after every simulation turn (any number of turns from the initial
state, for every route list and allocation), no two ants on a route share a
position index other than the start index 0 or the final index; ants that
have not entered share only the sentinel -1, which is not a position on the
route. -/
theorem C5_occupancy_invariant (pathList : List (List String)) (counts : List Int) :
    ∀ n : Nat, ∀ s ∈ stepSims^[n] (initSimulation pathList counts),
    OccupancyOK s := by
  intro n
  induction n with
  | zero =>
    intro s hs
    rw [Function.iterate_zero_apply] at hs
    obtain ⟨_, k, hpos⟩ := initSimLoop_spec pathList counts 1 s hs
    intro i j hij hj heq
    left
    rw [hpos] at hj
    rw [List.length_replicate] at hj
    rw [hpos, getD_replicate _ _ _ (lt_trans hij hj)]
  | succ n ih =>
    intro s hs
    rw [Function.iterate_succ_apply'] at hs
    obtain ⟨t, ht, hteq⟩ :=
      processTurn_mem (stepSims^[n] (initSimulation pathList counts)) s hs
    exact hteq ▸ processTurnPath_preserves_OK t (ih t ht)

theorem C5_occupancy_invariant_witness :
    OccupancyOK ⟨["s", "t"], [-1], [1]⟩ :=
  C5_occupancy_invariant [["s", "t"]] [1] 0 ⟨["s", "t"], [-1], [1]⟩ (by decide)

/-! ### C3: the single-route makespan -/

theorem posF_cases (L N t j : Nat) :
    ((t : Int) ≤ (N : Int) - 1 - (j : Int) ∧ posF L N t j = -1)
    ∨ ((t : Int) > (N : Int) - 1 - (j : Int)
        ∧ (t : Int) - ((N : Int) - 1 - (j : Int)) ≤ (L : Int) - 1
        ∧ posF L N t j = (t : Int) - ((N : Int) - 1 - (j : Int)))
    ∨ ((t : Int) > (N : Int) - 1 - (j : Int)
        ∧ (t : Int) - ((N : Int) - 1 - (j : Int)) > (L : Int) - 1
        ∧ posF L N t j = (L : Int) - 1) := by
  rw [posF]
  split_ifs with ha hb
  · exact Or.inl ⟨ha, rfl⟩
  · exact Or.inr (Or.inl ⟨by omega, hb, rfl⟩)
  · exact Or.inr (Or.inr ⟨by omega, by omega, rfl⟩)

theorem list_eq_of_getD : ∀ l l' : List Int, l.length = l'.length →
    (∀ i, i < l.length → l.getD i 0 = l'.getD i 0) → l = l' := by
  intro l
  induction l with
  | nil =>
    intro l' h _
    cases l' with
    | nil => rfl
    | cons b t' => simp at h
  | cons a t ih =>
    intro l' h hg
    cases l' with
    | nil => simp at h
    | cons b t' =>
      have h0 : a = b := by simpa using hg 0 (by simp)
      have ht := ih t' (by simpa using h)
        (fun i hi => by simpa using hg (i + 1) (by simpa using hi))
      rw [h0, ht]

theorem set_map_range (f : Nat → Int) (n c : Nat) (v : Int) :
    ((List.range n).map f).set c v
      = (List.range n).map (fun i => if i = c then v else f i) := by
  apply list_eq_of_getD
  · rw [List.length_set]; simp
  · intro i hi
    rw [List.length_set, List.length_map, List.length_range] at hi
    by_cases hic : i = c
    · subst hic
      rw [getD_set_self _ _ _ (by simp [hi]), getD_map_range _ _ _ hi, if_pos rfl]
    · rw [getD_set_ne _ _ _ _ hic, getD_map_range _ _ _ hi, getD_map_range _ _ _ hi,
        if_neg hic]

theorem hybridF_eq_of_val (L N t c : Nat) (h : posF L N t c = posF L N (t + 1) c) :
    hybridF L N t (c + 1) = hybridF L N t c := by
  rw [hybridF, hybridF]
  apply list_eq_of_getD
  · simp
  · intro i hi
    simp only [List.length_map, List.length_range] at hi
    rw [getD_map_range _ _ _ hi, getD_map_range _ _ _ hi]
    by_cases hic : i = c
    · subst hic
      rw [if_pos (by omega), if_neg (by omega)]
      exact h
    · by_cases hlt : i < c
      · rw [if_pos (by omega), if_pos hlt]
      · rw [if_neg (by omega), if_neg hlt]

theorem hybridF_set (L N t c : Nat) :
    (hybridF L N t (c + 1)).set c (posF L N (t + 1) c) = hybridF L N t c := by
  rw [hybridF, set_map_range, hybridF]
  apply list_eq_of_getD
  · simp
  · intro i hi
    simp only [List.length_map, List.length_range] at hi
    rw [getD_map_range _ _ _ hi, getD_map_range _ _ _ hi]
    by_cases hic : i = c
    · subst hic
      rw [if_pos rfl, if_neg (by omega)]
    · rw [if_neg hic]
      by_cases hlt : i < c
      · rw [if_pos (by omega), if_pos hlt]
      · rw [if_neg (by omega), if_neg hlt]

theorem hybridF_zero (L N t : Nat) : hybridF L N t 0 = stateF L N (t + 1) := by
  rw [hybridF, stateF]
  apply list_eq_of_getD
  · simp
  · intro i hi
    simp only [List.length_map, List.length_range] at hi
    rw [getD_map_range _ _ _ hi, getD_map_range _ _ _ hi, if_neg (by omega)]

theorem hybridF_top (L N t : Nat) : hybridF L N t N = stateF L N t := by
  rw [hybridF, stateF]
  apply list_eq_of_getD
  · simp
  · intro i hi
    simp only [List.length_map, List.length_range] at hi
    rw [getD_map_range _ _ _ hi, getD_map_range _ _ _ hi, if_pos hi]

theorem isRoomOccupied_true_iff (l : List Int) (v : Int) :
    isRoomOccupied l v = true ↔ ∃ x ∈ l, x = v := by
  rw [isRoomOccupied]
  simp [List.any_eq_true]

theorem isRoomOccupied_map_range_false (f : Nat → Int) (n : Nat) (v : Int) :
    isRoomOccupied ((List.range n).map f) v = false ↔ ∀ i, i < n → f i ≠ v := by
  rw [isRoomOccupied_false_iff]
  constructor
  · intro h i hi
    exact h (f i) (List.mem_map_of_mem f (List.mem_range.mpr hi))
  · intro h x hx
    obtain ⟨i, hi, rfl⟩ := List.mem_map.mp hx
    exact h i (List.mem_range.mp hi)

/-- One step of the reverse loop on the closed-form state: processing ant c
turns the hybrid state with boundary c+1 into the hybrid state with
boundary c, appending at most one move. -/
theorem antStep_hybrid (p : List String) (ids : List Int) (L N t c : Nat)
    (hp : p.length = L) (hL : 3 ≤ L) (hc : c < N) (ms : List Move) :
    ∃ δ : List Move,
      antStep p ids (stateF L N t) c (ms, hybridF L N t (c + 1))
        = (ms ++ δ, hybridF L N t c) := by
  have hgetOld : (stateF L N t).getD c 0 = posF L N t c := by
    rw [stateF]; exact getD_map_range _ _ _ hc
  rw [antStep]
  simp only [hgetOld, hp]
  rcases posF_cases L N t c with ⟨ha, hval⟩ | ⟨ha, hb, hval⟩ | ⟨ha, hb, hval⟩
  · rw [if_pos hval]
    by_cases hocc : (t : Int) < (N : Int) - 1 - (c : Int)
    · have hoccT : isRoomOccupied (hybridF L N t (c + 1)) 1 = true := by
        rw [hybridF, isRoomOccupied_true_iff]
        have hwlt : N - 1 - t < N := by omega
        refine ⟨if N - 1 - t < c + 1 then posF L N t (N - 1 - t)
            else posF L N (t + 1) (N - 1 - t),
          List.mem_map_of_mem _ (List.mem_range.mpr hwlt), ?_⟩
        rw [if_neg (by omega)]
        rcases posF_cases L N (t + 1) (N - 1 - t) with ⟨h1, h2⟩ | ⟨h1, h2, h3⟩
          | ⟨h1, h2, h3⟩ <;> omega
      rw [if_pos hoccT]
      refine ⟨[], ?_⟩
      rw [List.append_nil]
      have hvc : posF L N t c = posF L N (t + 1) c := by
        rcases posF_cases L N (t + 1) c with ⟨h1, h2⟩ | ⟨h1, h2, h3⟩
          | ⟨h1, h2, h3⟩ <;> omega
      rw [hybridF_eq_of_val L N t c hvc]
    · have hoccF : isRoomOccupied (hybridF L N t (c + 1)) 1 = false := by
        rw [hybridF, isRoomOccupied_map_range_false]
        intro i hi
        by_cases hic : i < c + 1
        · rw [if_pos hic]
          rcases posF_cases L N t i with ⟨h1, h2⟩ | ⟨h1, h2, h3⟩
            | ⟨h1, h2, h3⟩ <;> omega
        · rw [if_neg hic]
          rcases posF_cases L N (t + 1) i with ⟨h1, h2⟩ | ⟨h1, h2, h3⟩
            | ⟨h1, h2, h3⟩ <;> omega
      rw [if_neg (by rw [hoccF]; exact Bool.false_ne_true)]
      refine ⟨[⟨ids.getD c 0, p.getD 1 ""⟩], ?_⟩
      have h1v : posF L N (t + 1) c = 1 := by
        rcases posF_cases L N (t + 1) c with ⟨h1, h2⟩ | ⟨h1, h2, h3⟩
          | ⟨h1, h2, h3⟩ <;> omega
      have hset : (hybridF L N t (c + 1)).set c (1 : Int) = hybridF L N t c := by
        rw [← h1v, hybridF_set]
      rw [hset]
  · have hnotneg : ¬ posF L N t c = -1 := by omega
    rw [if_neg hnotneg]
    by_cases h2 : posF L N t c < (L : Int) - 1
    · rw [if_pos h2]
      have hguard : posF L N t c + 1 = (L : Int) - 1
          ∨ isRoomOccupied (hybridF L N t (c + 1)) (posF L N t c + 1) = false := by
        by_cases hnext : posF L N t c + 1 = (L : Int) - 1
        · exact Or.inl hnext
        · right
          rw [hybridF, isRoomOccupied_map_range_false]
          intro i hi
          by_cases hic : i < c + 1
          · rw [if_pos hic]
            by_cases hicc : i = c
            · subst hicc; omega
            · rcases posF_cases L N t i with ⟨g1, g2⟩ | ⟨g1, g2, g3⟩
                | ⟨g1, g2, g3⟩ <;> omega
          · rw [if_neg hic]
            rcases posF_cases L N (t + 1) i with ⟨g1, g2⟩ | ⟨g1, g2, g3⟩
              | ⟨g1, g2, g3⟩ <;> omega
      rw [if_pos hguard]
      refine ⟨[⟨ids.getD c 0, p.getD (posF L N t c + 1).toNat ""⟩], ?_⟩
      have hval1 : posF L N (t + 1) c = posF L N t c + 1 := by
        rcases posF_cases L N (t + 1) c with ⟨g1, g2⟩ | ⟨g1, g2, g3⟩
          | ⟨g1, g2, g3⟩ <;> omega
      have hset : (hybridF L N t (c + 1)).set c (posF L N t c + 1)
          = hybridF L N t c := by
        rw [← hval1, hybridF_set]
      rw [hset]
    · rw [if_neg h2]
      refine ⟨[], ?_⟩
      rw [List.append_nil]
      have hvc : posF L N t c = posF L N (t + 1) c := by
        rcases posF_cases L N (t + 1) c with ⟨g1, g2⟩ | ⟨g1, g2, g3⟩
          | ⟨g1, g2, g3⟩ <;> omega
      rw [hybridF_eq_of_val L N t c hvc]
  · have hnotneg : ¬ posF L N t c = -1 := by omega
    rw [if_neg hnotneg]
    rw [if_neg (show ¬ posF L N t c < (L : Int) - 1 by omega)]
    refine ⟨[], ?_⟩
    rw [List.append_nil]
    have hvc : posF L N t c = posF L N (t + 1) c := by
      rcases posF_cases L N (t + 1) c with ⟨g1, g2⟩ | ⟨g1, g2, g3⟩
        | ⟨g1, g2, g3⟩ <;> omega
    rw [hybridF_eq_of_val L N t c hvc]

theorem antLoop_hybrid (p : List String) (ids : List Int) (L N t : Nat)
    (hp : p.length = L) (hL : 3 ≤ L) :
    ∀ c, c ≤ N → ∀ ms : List Move,
    ∃ extra, antLoop p ids (stateF L N t) c (ms, hybridF L N t c)
      = (ms ++ extra, hybridF L N t 0) := by
  intro c
  induction c with
  | zero => intro _ ms; exact ⟨[], by simp [antLoop]⟩
  | succ c ih =>
    intro hc ms
    rw [antLoop]
    obtain ⟨δ, hδ⟩ := antStep_hybrid p ids L N t c hp hL (by omega) ms
    rw [hδ]
    obtain ⟨extra, hex⟩ := ih (by omega) (ms ++ δ)
    rw [hex]
    exact ⟨δ ++ extra, by rw [List.append_assoc]⟩

theorem stateF_length (L N t : Nat) : (stateF L N t).length = N := by
  simp [stateF]

theorem stateF_fix (L N t : Nat) (hL : 2 ≤ L) (hN : 1 ≤ N) :
    (∀ i, i < N → posF L N (t + 1) i = posF L N t i) ↔ L + N - 2 ≤ t := by
  constructor
  · intro h
    by_contra hlt
    push_neg at hlt
    by_cases ht : t ≤ N - 1
    · have hw : N - 1 - t < N := by omega
      have hth := h (N - 1 - t) hw
      rcases posF_cases L N t (N - 1 - t) with ⟨a1, a2⟩ | ⟨a1, a2, a3⟩ | ⟨a1, a2, a3⟩ <;>
        rcases posF_cases L N (t + 1) (N - 1 - t) with ⟨b1, b2⟩ | ⟨b1, b2, b3⟩
          | ⟨b1, b2, b3⟩ <;> omega
    · have hth := h 0 (by omega)
      rcases posF_cases L N t 0 with ⟨a1, a2⟩ | ⟨a1, a2, a3⟩ | ⟨a1, a2, a3⟩ <;>
        rcases posF_cases L N (t + 1) 0 with ⟨b1, b2⟩ | ⟨b1, b2, b3⟩
          | ⟨b1, b2, b3⟩ <;> omega
  · intro h i hi
    rcases posF_cases L N t i with ⟨a1, a2⟩ | ⟨a1, a2, a3⟩ | ⟨a1, a2, a3⟩ <;>
      rcases posF_cases L N (t + 1) i with ⟨b1, b2⟩ | ⟨b1, b2, b3⟩
        | ⟨b1, b2, b3⟩ <;> omega

theorem processTurnPath_else (sim : PathSim) (h : ¬ sim.path.length = 2) :
    processTurnPath sim
      = ((antLoop sim.path sim.antIDs sim.positions sim.positions.length
            ([], sim.positions)).1,
         { sim with positions := (antLoop sim.path sim.antIDs sim.positions
            sim.positions.length ([], sim.positions)).2 }) := by
  rw [processTurnPath, if_neg h]

/-- One whole turn on the closed-form state of a route with at least three
rooms: the state advances from t to t+1, and a move is recorded exactly
while t is below the makespan L + N - 2. -/
theorem processTurnPath_stateF (p : List String) (ids : List Int) (L N t : Nat)
    (hp : p.length = L) (hL : 3 ≤ L) (hN : 1 ≤ N) :
    ∃ ms, processTurnPath ⟨p, stateF L N t, ids⟩ = (ms, ⟨p, stateF L N (t + 1), ids⟩)
      ∧ (ms = [] ↔ L + N - 2 ≤ t) := by
  have hbranch := processTurnPath_else ⟨p, stateF L N t, ids⟩
    (show ¬ p.length = 2 by omega)
  simp only at hbranch
  rw [stateF_length] at hbranch
  obtain ⟨extra, hex⟩ := antLoop_hybrid p ids L N t hp hL N (le_refl N) []
  rw [hybridF_top, hybridF_zero] at hex
  obtain ⟨extra2, newPos, hex2, _, _, _, hiff⟩ :=
    antLoop_spec p ids (stateF L N t) N [] (stateF L N t) rfl
      (by rw [stateF_length]) (fun _ _ => rfl)
  rw [hex] at hex2
  have hextra2 : extra = extra2 := by
    have := congrArg Prod.fst hex2
    simpa using this
  have hnewPos : stateF L N (t + 1) = newPos := by
    simpa using congrArg Prod.snd hex2
  refine ⟨extra, ?_, ?_⟩
  · rw [hbranch, hex]
    simp
  · rw [hextra2, hiff, ← hnewPos]
    have hconv : (∀ i < N, (stateF L N (t + 1)).getD i 0 = (stateF L N t).getD i 0)
        ↔ ∀ i < N, posF L N (t + 1) i = posF L N t i := by
      apply forall_congr'
      intro i
      apply imp_congr_right
      intro hi
      rw [stateF, stateF, getD_map_range _ _ _ hi, getD_map_range _ _ _ hi]
    rw [hconv]
    exact stateF_fix L N t (by omega) hN

theorem processTurn_single (sim : PathSim) (ms : List Move) (sim' : PathSim)
    (h : processTurnPath sim = (ms, sim')) :
    processTurn [sim] = (ms, [sim']) := by
  simp [processTurn, h]

/-- Running the simulation loop on the closed-form state of a long route
consumes exactly the remaining L + N - 2 - t turns. -/
theorem simulateLoop_stateF (p : List String) (ids : List Int) (L N : Nat)
    (hp : p.length = L) (hL : 3 ≤ L) (hN : 1 ≤ N) :
    ∀ (fuel t : Nat), L + N - 2 - t < fuel →
    ∃ tr, simulateLoop fuel [⟨p, stateF L N t, ids⟩] = some tr
      ∧ tr.length = L + N - 2 - t := by
  intro fuel
  induction fuel with
  | zero => intro t h; omega
  | succ fuel ih =>
    intro t h
    obtain ⟨ms, hms, hiff⟩ := processTurnPath_stateF p ids L N t hp hL hN
    have hpt := processTurn_single _ _ _ hms
    rw [simulateLoop]
    simp only [hpt]
    by_cases hdone : L + N - 2 ≤ t
    · rw [if_pos (hiff.mpr hdone)]
      exact ⟨[], rfl, by simp only [List.length_nil]; omega⟩
    · have hmsne : ms ≠ [] := fun he => hdone (hiff.mp he)
      rw [if_neg hmsne]
      obtain ⟨tr, htr, hlen⟩ := ih (t + 1) (by omega)
      rw [htr]
      exact ⟨ms :: tr, rfl, by simp only [List.length_cons]; omega⟩

/-- The two-room injection on a run of entered ants followed by a run of
waiting ants: nothing happens when nobody waits, otherwise exactly the
first waiting ant enters. -/
theorem injectDirect_run (room1 : String) (ids : List Int) :
    ∀ (a b j : Nat),
    (b = 0 → injectDirect room1 ids
        (List.replicate a 1 ++ List.replicate b (-1)) j
      = ([], List.replicate a 1 ++ List.replicate b (-1)))
    ∧ (1 ≤ b → ∃ mv, injectDirect room1 ids
        (List.replicate a 1 ++ List.replicate b (-1)) j
      = ([mv], List.replicate (a + 1) 1 ++ List.replicate (b - 1) (-1))) := by
  intro a
  induction a with
  | zero =>
    intro b j
    constructor
    · intro hb
      subst hb
      simp [injectDirect]
    · intro hb
      cases b with
      | zero => omega
      | succ b' =>
        refine ⟨⟨ids.getD j 0, room1⟩, ?_⟩
        simp [injectDirect, List.replicate_succ]
  | succ a ih =>
    intro b j
    have hcons : List.replicate (a + 1) 1 ++ List.replicate b (-1 : Int)
        = 1 :: (List.replicate a 1 ++ List.replicate b (-1)) := by
      rw [List.replicate_succ, List.cons_append]
    constructor
    · intro hb
      have hrec := (ih b (j + 1)).1 hb
      rw [hcons, injectDirect, if_neg (by decide : ¬ (1 : Int) = -1), hrec]
    · intro hb
      obtain ⟨mv, hmv⟩ := (ih b (j + 1)).2 hb
      refine ⟨mv, ?_⟩
      have hcons2 : List.replicate (a + 1 + 1) 1 ++ List.replicate (b - 1) (-1 : Int)
          = 1 :: (List.replicate (a + 1) 1 ++ List.replicate (b - 1) (-1)) := by
        rw [List.replicate_succ, List.cons_append]
      rw [hcons, hcons2, injectDirect, if_neg (by decide : ¬ (1 : Int) = -1), hmv]

/-- One whole turn of the two-room branch on the canonical state. -/
theorem processTurnPath_direct (p : List String) (ids : List Int)
    (hp : p.length = 2) (a b : Nat) :
    (b = 0 → processTurnPath ⟨p, List.replicate a 1 ++ List.replicate b (-1), ids⟩
      = ([], ⟨p, List.replicate a 1 ++ List.replicate b (-1), ids⟩))
    ∧ (1 ≤ b → ∃ mv,
      processTurnPath ⟨p, List.replicate a 1 ++ List.replicate b (-1), ids⟩
      = ([mv], ⟨p, List.replicate (a + 1) 1 ++ List.replicate (b - 1) (-1), ids⟩)) := by
  constructor
  · intro hb
    rw [processTurnPath, if_pos (show (⟨p, _, ids⟩ : PathSim).path.length = 2 from hp)]
    have h := (injectDirect_run (p.getD 1 "") ids a b 0).1 hb
    simp only at h ⊢
    rw [h]
  · intro hb
    obtain ⟨mv, h⟩ := (injectDirect_run (p.getD 1 "") ids a b 0).2 hb
    refine ⟨mv, ?_⟩
    rw [processTurnPath, if_pos (show (⟨p, _, ids⟩ : PathSim).path.length = 2 from hp)]
    simp only at h ⊢
    rw [h]

theorem simulateLoop_direct (p : List String) (ids : List Int) (hp : p.length = 2) :
    ∀ (fuel b a : Nat), b < fuel →
    ∃ tr, simulateLoop fuel
        [⟨p, List.replicate a 1 ++ List.replicate b (-1), ids⟩] = some tr
      ∧ tr.length = b := by
  intro fuel
  induction fuel with
  | zero => intro b a h; omega
  | succ fuel ih =>
    intro b a h
    cases b with
    | zero =>
      have hturn := (processTurnPath_direct p ids hp a 0).1 rfl
      have hpt := processTurn_single _ _ _ hturn
      rw [simulateLoop]
      simp only [hpt]
      exact ⟨[], by simp, rfl⟩
    | succ b' =>
      obtain ⟨mv, hturn⟩ := (processTurnPath_direct p ids hp a (b' + 1)).2 (by omega)
      have hpt := processTurn_single _ _ _ hturn
      rw [simulateLoop]
      simp only [hpt]
      rw [if_neg (by simp)]
      obtain ⟨tr, htr, hlen⟩ := ih b' (a + 1) (by omega)
      simp only [Nat.add_sub_cancel]
      rw [htr]
      exact ⟨[mv] :: tr, rfl, by simp only [List.length_cons]; omega⟩

/-- C3: a single route of L rooms carrying N ants finishes in exactly
(L - 1) + (N - 1) recorded turns. -/
theorem C3_single_route_makespan (p : List String) (N : Nat)
    (hL : 2 ≤ p.length) (hN : 1 ≤ N) :
    ∃ tr, SimulateMultiPath [p] [(N : Int)] = some tr
      ∧ tr.length = (p.length - 1) + (N - 1) := by
  have hinit : initSimulation [p] [(N : Int)]
      = [⟨p, List.replicate N (-1),
          (List.range N).map (fun k => 1 + (k : Int))⟩] := by
    simp [initSimulation, initSimLoop]
  have hfuel : potentialBound [p] [(N : Int)] = (p.length - 1) * N := by
    simp [potentialBound]
  by_cases h2 : p.length = 2
  · obtain ⟨tr, htr, hlen⟩ := simulateLoop_direct p
      ((List.range N).map (fun k => 1 + (k : Int))) h2
      ((p.length - 1) * N + 1) N 0 (by rw [h2]; omega)
    refine ⟨tr, ?_, by omega⟩
    rw [SimulateMultiPath, hinit, hfuel]
    have hrepl : List.replicate N (-1 : Int)
        = List.replicate 0 1 ++ List.replicate N (-1) := by simp
    rw [hrepl]
    exact htr
  · have hL3 : 3 ≤ p.length := by omega
    have hstate0 : List.replicate N (-1 : Int) = stateF p.length N 0 := by
      apply list_eq_of_getD
      · simp [stateF]
      · intro i hi
        simp only [List.length_replicate] at hi
        rw [getD_replicate _ _ _ hi, stateF, getD_map_range _ _ _ hi,
          posF, if_pos (by omega)]
    obtain ⟨a, ha⟩ : ∃ a, p.length = a + 3 := ⟨p.length - 3, by omega⟩
    obtain ⟨b, hb⟩ : ∃ b, N = b + 1 := ⟨N - 1, by omega⟩
    obtain ⟨tr, htr, hlen⟩ := simulateLoop_stateF p
      ((List.range N).map (fun k => 1 + (k : Int))) p.length N rfl hL3 hN
      ((p.length - 1) * N + 1) 0 (by
        rw [ha, hb]
        have h31 : a + 3 - 1 = a + 2 := rfl
        rw [h31]
        have hz : 0 ≤ a * b := Nat.zero_le _
        have hexp : (a + 2) * (b + 1) = a * b + a + 2 * b + 2 := by ring
        omega)
    refine ⟨tr, ?_, by omega⟩
    rw [SimulateMultiPath, hinit, hfuel, hstate0]
    exact htr

/-- Witness for C3 at a concrete input. -/
theorem C3_single_route_makespan_witness :
    ∃ tr, SimulateMultiPath [["s", "m", "e"]] [(2 : Nat)] = some tr
      ∧ tr.length = (3 - 1) + (2 - 1) :=
  C3_single_route_makespan ["s", "m", "e"] 2 (by decide) (by decide)

/-! ### C8: determinism of the pipeline -/

theorem resolve_components : ∀ (rooms : List Room) (acc : String × String),
    rooms.foldl
      (fun se r =>
        (if r.isStart then r.name else se.1, if r.isEnd then r.name else se.2)) acc
    = (rooms.foldl (fun s r => if r.isStart then r.name else s) acc.1,
       rooms.foldl (fun s r => if r.isEnd then r.name else s) acc.2) := by
  intro rooms
  induction rooms with
  | nil => intro acc; rfl
  | cons r rest ih =>
    intro acc
    rw [List.foldl_cons, List.foldl_cons, List.foldl_cons, ih]

theorem foldl_flag_stable (f : Room → Bool) :
    ∀ (rooms : List Room) (nm : String),
    (∀ r ∈ rooms, f r = true → r.name = nm) →
    rooms.foldl (fun s r => if f r then r.name else s) nm = nm := by
  intro rooms
  induction rooms with
  | nil => intro nm _; rfl
  | cons r rest ih =>
    intro nm h
    rw [List.foldl_cons]
    by_cases hr : f r = true
    · rw [if_pos hr, h r (List.mem_cons_self _ _) hr]
      exact ih nm (fun x hx => h x (List.mem_cons_of_mem _ hx))
    · rw [if_neg hr]
      exact ih nm (fun x hx => h x (List.mem_cons_of_mem _ hx))

theorem foldl_flag_unique (f : Room → Bool) :
    ∀ (rooms : List Room) (S : Room) (acc : String),
    S ∈ rooms → f S = true → (∀ r ∈ rooms, f r = true → r = S) →
    rooms.foldl (fun s r => if f r then r.name else s) acc = S.name := by
  intro rooms
  induction rooms with
  | nil => intro S acc hS _ _; cases hS
  | cons r rest ih =>
    intro S acc hS hfS honly
    rw [List.foldl_cons]
    by_cases hr : f r = true
    · have hrS : r = S := honly r (List.mem_cons_self _ _) hr
      rw [if_pos hr, hrS]
      exact foldl_flag_stable f rest S.name
        (fun x hx hfx => by rw [honly x (List.mem_cons_of_mem _ hx) hfx])
    · rw [if_neg hr]
      have hSrest : S ∈ rest := by
        rcases List.mem_cons.mp hS with rfl | h
        · exact absurd hfS hr
        · exact h
      exact ih S acc hSrest hfS (fun x hx => honly x (List.mem_cons_of_mem _ hx))

/-- With exactly one flagged start and one flagged end, the Rooms scan
resolves to their names in every iteration order. -/
theorem resolveStartEnd_unique (rooms : List Room) (S E : Room)
    (hS : S ∈ rooms) (hSs : S.isStart = true)
    (hSonly : ∀ r ∈ rooms, r.isStart = true → r = S)
    (hE : E ∈ rooms) (hEe : E.isEnd = true)
    (hEonly : ∀ r ∈ rooms, r.isEnd = true → r = E) :
    resolveStartEnd rooms = (S.name, E.name) := by
  rw [resolveStartEnd, resolve_components]
  rw [foldl_flag_unique (fun r => r.isStart) rooms S _ hS hSs hSonly]
  rw [foldl_flag_unique (fun r => r.isEnd) rooms E _ hE hEe hEonly]

/-- C8: the pipeline is deterministic.  The only unspecified behavior in
the three core stages is the Go map iteration order of the Rooms scan in
FindMultiplePaths, modelled here as the order of the rooms list: with
exactly one flagged start and one flagged end, any two iteration orders
(permutations of the rooms) give identical routes, allocation and trace. -/
theorem C8_pipeline_deterministic (rooms1 rooms2 : List Room) (nbrs : Conns)
    (antCount : Int) (h0 : 0 ≤ antCount)
    (hperm : rooms1.Perm rooms2)
    (S : Room) (hS : S ∈ rooms1) (hSs : S.isStart = true)
    (hSonly : ∀ r ∈ rooms1, r.isStart = true → r = S)
    (E : Room) (hE : E ∈ rooms1) (hEe : E.isEnd = true)
    (hEonly : ∀ r ∈ rooms1, r.isEnd = true → r = E) :
    pipeline ⟨rooms1, nbrs⟩ antCount = pipeline ⟨rooms2, nbrs⟩ antCount := by
  have hres1 : resolveStartEnd rooms1 = (S.name, E.name) :=
    resolveStartEnd_unique rooms1 S E hS hSs hSonly hE hEe hEonly
  have hres2 : resolveStartEnd rooms2 = (S.name, E.name) :=
    resolveStartEnd_unique rooms2 S E (hperm.mem_iff.mp hS) hSs
      (fun r hr => hSonly r (hperm.mem_iff.mpr hr))
      (hperm.mem_iff.mp hE) hEe
      (fun r hr => hEonly r (hperm.mem_iff.mpr hr))
  have hfind : FindMultiplePaths ⟨rooms1, nbrs⟩ = FindMultiplePaths ⟨rooms2, nbrs⟩ := by
    rw [FindMultiplePaths, FindMultiplePaths]
    simp only [hres1, hres2]
  rw [pipeline, pipeline, hfind]

/-- Witness for C8 at a concrete input. -/
theorem C8_pipeline_deterministic_witness :
    pipeline ⟨[⟨"s", 0, 0, true, false⟩, ⟨"e", 0, 0, false, true⟩],
        [("s", ["e"]), ("e", ["s"])]⟩ 1
      = pipeline ⟨[⟨"e", 0, 0, false, true⟩, ⟨"s", 0, 0, true, false⟩],
        [("s", ["e"]), ("e", ["s"])]⟩ 1 :=
  C8_pipeline_deterministic _ _ _ 1 (by decide)
    (List.Perm.swap _ _ _) ⟨"s", 0, 0, true, false⟩ (by decide) (by decide)
    (by decide) ⟨"e", 0, 0, false, true⟩ (by decide) (by decide) (by decide)

/-! ### C9: FindMultiplePaths never mutates the original graph -/

theorem getD_set_ne_gen {α : Type} (d : α) :
    ∀ (l : List α) (j i : Nat) (v : α), i ≠ j → (l.set j v).getD i d = l.getD i d := by
  intro l
  induction l with
  | nil => intro j i v _; rfl
  | cons a t ih =>
    intro j i v h
    cases j with
    | zero =>
      cases i with
      | zero => exact absurd rfl h
      | succ i => rfl
    | succ j =>
      cases i with
      | zero => rfl
      | succ i =>
        rw [List.set_cons_succ, List.getD_cons_succ, List.getD_cons_succ]
        exact ih j i v (fun he => h (by rw [he]))

theorem refLookup_mem : ∀ (refs : ConnRefs) (a : String) (ad : Nat),
    refLookup refs a = some ad → (a, ad) ∈ refs := by
  intro refs
  induction refs with
  | nil => intro a ad h; simp [refLookup] at h
  | cons pr rest ih =>
    intro a ad h
    rw [refLookup] at h
    by_cases hk : pr.1 = a
    · rw [if_pos hk] at h
      have hpr2 : pr.2 = ad := by simpa using h
      rw [← hk, ← hpr2]
      exact List.mem_cons_self _ _
    · rw [if_neg hk] at h
      exact List.mem_cons_of_mem _ (ih a ad h)

theorem copyRefs_fresh : ∀ (refs : ConnRefs) (st : Store),
    ∀ pr ∈ (copyRefs st refs).2, st.length ≤ pr.2 := by
  intro refs
  induction refs with
  | nil => intro st pr hpr; simp [copyRefs] at hpr
  | cons e rest ih =>
    intro st pr hpr
    obtain ⟨name, addr⟩ := e
    rw [copyRefs] at hpr
    simp only at hpr
    rcases List.mem_cons.mp hpr with rfl | hpr'
    · exact le_refl _
    · have := ih (st ++ [readCell st addr]) pr hpr'
      rw [List.length_append] at this
      omega

theorem copyRefs_preserves : ∀ (refs : ConnRefs) (st : Store) (i : Nat),
    i < st.length → readCell (copyRefs st refs).1 i = readCell st i := by
  intro refs
  induction refs with
  | nil => intro st i _; rfl
  | cons e rest ih =>
    intro st i hi
    obtain ⟨name, addr⟩ := e
    rw [copyRefs]
    simp only
    have hlen : i < (st ++ [readCell st addr]).length := by
      rw [List.length_append]; omega
    rw [ih (st ++ [readCell st addr]) i hlen]
    exact List.getD_append _ _ _ _ hi

theorem removePathEdgesHeap_frame (refs : ConnRefs) (n0 : Nat)
    (haddr : ∀ pr ∈ refs, n0 ≤ pr.2) :
    ∀ (path : List String) (st : Store) (i : Nat), i < n0 →
    readCell (removePathEdgesHeap st refs path) i = readCell st i := by
  intro path
  induction path with
  | nil => intro st i _; rfl
  | cons a rest ih =>
    intro st i hi
    cases rest with
    | nil => rfl
    | cons b rest' =>
      rw [removePathEdgesHeap]
      cases hlook : refLookup refs a with
      | none =>
        simp only [hlook]
        exact ih st i hi
      | some addr =>
        simp only [hlook]
        have haddr' : n0 ≤ addr := haddr (a, addr) (refLookup_mem refs a addr hlook)
        rw [ih _ i hi]
        exact getD_set_ne_gen [] st addr i _ (by omega)

theorem findRoutesLoopHeap_frame (s e : String) (refs : ConnRefs) (n0 : Nat)
    (haddr : ∀ pr ∈ refs, n0 ≤ pr.2) :
    ∀ (fuel : Nat) (st : Store) (acc : List (List String)) (i : Nat), i < n0 →
    readCell (findRoutesLoopHeap s e fuel st refs acc).1 i = readCell st i := by
  intro fuel
  induction fuel with
  | zero => intro st acc i _; rfl
  | succ fuel ih =>
    intro st acc i hi
    rw [findRoutesLoopHeap]
    cases hbfs : bfs (extractConns st refs) s e with
    | none => simp only [hbfs]
    | some path =>
      simp only [hbfs]
      rw [ih _ _ i hi]
      exact removePathEdgesHeap_frame refs n0 haddr path st i hi

theorem extractConns_congr : ∀ (refs : ConnRefs) (st1 st2 : Store),
    (∀ pr ∈ refs, readCell st1 pr.2 = readCell st2 pr.2) →
    extractConns st1 refs = extractConns st2 refs := by
  intro refs
  induction refs with
  | nil => intro st1 st2 _; rfl
  | cons pr rest ih =>
    intro st1 st2 h
    rw [extractConns, extractConns, List.map_cons, List.map_cons]
    rw [h pr (List.mem_cons_self _ _)]
    have := ih st1 st2 (fun x hx => h x (List.mem_cons_of_mem _ hx))
    rw [extractConns, extractConns] at this
    rw [this]

/-- C9: on the heap model of Go slices, FindMultiplePaths leaves every
neighbor-list cell of the original Graph unchanged: it deep-copies the
cells up front and all writes of the search loop go through the copied
references, which are all fresh.  The Rooms map is only ever read (the
start/end scan), so the whole original Graph is intact after the call. -/
theorem C9_no_graph_mutation (rooms : List Room) (st0 : Store)
    (refs : ConnRefs) (haddr : ∀ pr ∈ refs, pr.2 < st0.length) :
    extractConns (FindMultiplePathsHeap rooms st0 refs).1 refs
      = extractConns st0 refs := by
  rw [FindMultiplePathsHeap]
  split_ifs with hmiss
  · rfl
  · apply extractConns_congr
    intro pr hpr
    have h1 := findRoutesLoopHeap_frame (resolveStartEnd rooms).1
      (resolveStartEnd rooms).2 (copyRefs st0 refs).2 st0.length
      (copyRefs_fresh refs st0)
      (totalEdges (extractConns (copyRefs st0 refs).1 (copyRefs st0 refs).2) + 1)
      (copyRefs st0 refs).1 [] pr.2 (haddr pr hpr)
    rw [h1]
    exact copyRefs_preserves refs st0 pr.2 (haddr pr hpr)

/-- Witness for C9 at a concrete input. -/
theorem C9_no_graph_mutation_witness :
    extractConns (FindMultiplePathsHeap
        [⟨"a", 0, 0, true, false⟩, ⟨"b", 0, 0, false, true⟩]
        [["b"], ["a"]] [("a", 0), ("b", 1)]).1 [("a", 0), ("b", 1)]
      = extractConns [["b"], ["a"]] [("a", 0), ("b", 1)] :=
  C9_no_graph_mutation _ _ _ (by decide)

/-! ### BFS loop measure lemmas -/

theorem lookupD_subset_allNodes (conns : Conns) (q : String) :
    ∀ n ∈ lookupD conns q, n ∈ allNodes conns := by
  induction conns with
  | nil => intro n hn; simp [lookupD] at hn
  | cons e rest ih =>
    intro n hn
    rw [lookupD] at hn
    by_cases h : e.1 = q
    · rw [if_pos h] at hn
      simp [allNodes, hn]
    · rw [if_neg h] at hn
      simp [allNodes, ih n hn]

theorem filter_notmem_cons_len {L visited : List String} {n : String}
    (hL : L.Nodup) (hn : n ∈ L) (hnv : n ∉ visited) :
    (L.filter (fun x => decide (x ∉ n :: visited))).length + 1
      = (L.filter (fun x => decide (x ∉ visited))).length := by
  induction L with
  | nil => cases hn
  | cons a t ih =>
    rcases List.mem_cons.mp hn with rfl | hat
    · have hnt : n ∉ t := (List.nodup_cons.mp hL).1
      have heq : t.filter (fun x => decide (x ∉ n :: visited))
          = t.filter (fun x => decide (x ∉ visited)) := by
        apply List.filter_congr
        intro x hx
        have hxn : x ≠ n := fun h => hnt (h ▸ hx)
        simp [List.mem_cons, hxn]
      have hmem : (decide (n ∉ n :: visited)) = false := by simp
      have hmem2 : (decide (n ∉ visited)) = true := by simpa using hnv
      simp only [List.filter_cons, hmem, hmem2, heq]
      simp
    · have hL' : t.Nodup := (List.nodup_cons.mp hL).2
      have ihx := ih hL' hat
      by_cases hav : a ∈ visited
      · have h1 : (decide (a ∉ n :: visited)) = false := by
          simp [List.mem_cons, hav]
        have h2 : (decide (a ∉ visited)) = false := by simpa using hav
        simp only [List.filter_cons, h1, h2]
        simpa using ihx
      · by_cases han : a = n
        · subst han
          exact absurd hat (List.nodup_cons.mp hL).1
        · have h1 : (decide (a ∉ n :: visited)) = true := by
            simp [List.mem_cons, han, hav]
          have h2 : (decide (a ∉ visited)) = true := by simpa using hav
          simp only [List.filter_cons, h1, h2]
          simp only [List.length_cons, if_true]
          omega

theorem unvis_cons (conns : Conns) (visited : List String) (n : String)
    (hn : n ∈ allNodes conns) (hnv : n ∉ visited) :
    unvisN conns (n :: visited) + 1 = unvisN conns visited :=
  filter_notmem_cons_len (List.nodup_dedup _) (List.mem_dedup.mpr hn) hnv

theorem enqueueNbrs_measure (conns : Conns) (q : String) :
    ∀ (ns queue visited : List String) (parent : List (String × String)),
    (∀ n ∈ ns, n ∈ allNodes conns) →
    unvisN conns (enqueueNbrs q ns queue visited parent).2.1
      + (enqueueNbrs q ns queue visited parent).1.length
      ≤ unvisN conns visited + queue.length := by
  intro ns
  induction ns with
  | nil => intro queue visited parent _; simp [enqueueNbrs]
  | cons n ns ih =>
    intro queue visited parent hsub
    rw [enqueueNbrs]
    by_cases hv : n ∈ visited
    · rw [if_pos hv]
      exact ih queue visited parent (fun m hm => hsub m (List.mem_cons_of_mem _ hm))
    · rw [if_neg hv]
      have hstep := ih (queue ++ [n]) (n :: visited) ((n, q) :: parent)
        (fun m hm => hsub m (List.mem_cons_of_mem _ hm))
      have hdec := unvis_cons conns visited n (hsub n (List.mem_cons_self _ _)) hv
      simp only [List.length_append, List.length_cons, List.length_nil] at hstep ⊢
      omega

theorem bfsLoop_no_fuelOut (conns : Conns) (endRoom : String) :
    ∀ (fuel : Nat) (queue visited : List String) (parent : List (String × String)),
    unvisN conns visited + queue.length < fuel →
    bfsLoop conns endRoom fuel queue visited parent ≠ .fuelOut := by
  intro fuel
  induction fuel with
  | zero => intro queue visited parent h; omega
  | succ fuel ih =>
    intro queue visited parent h
    match queue with
    | [] => simp [bfsLoop]
    | q :: rest =>
      rw [bfsLoop]
      by_cases hq : q = endRoom
      · simp [hq]
      · rw [if_neg hq]
        apply ih
        have hm := enqueueNbrs_measure conns q (lookupD conns q) rest visited parent
          (lookupD_subset_allNodes conns q)
        simp only [List.length_cons] at h
        omega

theorem unvisN_le (conns : Conns) (visited : List String) :
    unvisN conns visited ≤ (allNodes conns).length :=
  le_trans (List.length_filter_le _ _) (List.Sublist.length_le (List.dedup_sublist _))

theorem bfs_run_no_fuelOut (conns : Conns) (s e : String) :
    bfsLoop conns e (bfsFuel conns) [s] [s] [] ≠ .fuelOut := by
  apply bfsLoop_no_fuelOut
  have := unvisN_le conns [s]
  simp only [bfsFuel, List.length_cons, List.length_nil]
  omega

/-! ### The bfs neighbor scan: bookkeeping facts -/

theorem enqueueNbrs_visited_grow (q : String) :
    ∀ (ns queue visited : List String) (parent : List (String × String)),
    ∀ x ∈ visited, x ∈ (enqueueNbrs q ns queue visited parent).2.1 := by
  intro ns
  induction ns with
  | nil => intro queue visited parent x hx; simpa [enqueueNbrs] using hx
  | cons n ns ih =>
    intro queue visited parent x hx
    rw [enqueueNbrs]
    by_cases hv : n ∈ visited
    · rw [if_pos hv]; exact ih queue visited parent x hx
    · rw [if_neg hv]
      exact ih _ _ _ x (List.mem_cons_of_mem _ hx)

theorem enqueueNbrs_visited_src (q : String) :
    ∀ (ns queue visited : List String) (parent : List (String × String)),
    ∀ x ∈ (enqueueNbrs q ns queue visited parent).2.1, x ∈ visited ∨ x ∈ ns := by
  intro ns
  induction ns with
  | nil => intro queue visited parent x hx; exact Or.inl (by simpa [enqueueNbrs] using hx)
  | cons n ns ih =>
    intro queue visited parent x hx
    rw [enqueueNbrs] at hx
    by_cases hv : n ∈ visited
    · rw [if_pos hv] at hx
      rcases ih queue visited parent x hx with h | h
      · exact Or.inl h
      · exact Or.inr (List.mem_cons_of_mem _ h)
    · rw [if_neg hv] at hx
      rcases ih _ _ _ x hx with h | h
      · rcases List.mem_cons.mp h with rfl | h'
        · exact Or.inr (List.mem_cons_self _ _)
        · exact Or.inl h'
      · exact Or.inr (List.mem_cons_of_mem _ h)

theorem enqueueNbrs_queue_keep (q : String) :
    ∀ (ns queue visited : List String) (parent : List (String × String)),
    ∀ x ∈ queue, x ∈ (enqueueNbrs q ns queue visited parent).1 := by
  intro ns
  induction ns with
  | nil => intro queue visited parent x hx; simpa [enqueueNbrs] using hx
  | cons n ns ih =>
    intro queue visited parent x hx
    rw [enqueueNbrs]
    by_cases hv : n ∈ visited
    · rw [if_pos hv]; exact ih queue visited parent x hx
    · rw [if_neg hv]
      exact ih _ _ _ x (List.mem_append_left _ hx)

theorem enqueueNbrs_ns_visited (q : String) :
    ∀ (ns queue visited : List String) (parent : List (String × String)),
    ∀ x ∈ ns, x ∈ (enqueueNbrs q ns queue visited parent).2.1 := by
  intro ns
  induction ns with
  | nil => intro _ _ _ x hx; cases hx
  | cons n ns ih =>
    intro queue visited parent x hx
    rw [enqueueNbrs]
    rcases List.mem_cons.mp hx with rfl | hx'
    · by_cases hv : x ∈ visited
      · rw [if_pos hv]; exact enqueueNbrs_visited_grow q ns queue visited parent x hv
      · rw [if_neg hv]
        exact enqueueNbrs_visited_grow q ns _ _ _ x (List.mem_cons_self _ _)
    · by_cases hv : n ∈ visited
      · rw [if_pos hv]; exact ih queue visited parent x hx'
      · rw [if_neg hv]; exact ih _ _ _ x hx'

theorem enqueueNbrs_queue_src (q : String) :
    ∀ (ns queue visited : List String) (parent : List (String × String)),
    ∀ x ∈ (enqueueNbrs q ns queue visited parent).1,
      x ∈ queue ∨ x ∈ (enqueueNbrs q ns queue visited parent).2.1 := by
  intro ns
  induction ns with
  | nil => intro queue visited parent x hx; exact Or.inl (by simpa [enqueueNbrs] using hx)
  | cons n ns ih =>
    intro queue visited parent x hx
    rw [enqueueNbrs] at hx ⊢
    by_cases hv : n ∈ visited
    · rw [if_pos hv] at hx ⊢; exact ih queue visited parent x hx
    · rw [if_neg hv] at hx ⊢
      rcases ih _ _ _ x hx with h | h
      · rcases List.mem_append.mp h with h' | h'
        · exact Or.inl h'
        · have hxn : x = n := by simpa using h'
          subst hxn
          exact Or.inr (enqueueNbrs_visited_grow q ns _ _ _ x (List.mem_cons_self _ _))
      · exact Or.inr h

theorem enqueueNbrs_new_in_queue (q : String) :
    ∀ (ns queue visited : List String) (parent : List (String × String)),
    ∀ x ∈ (enqueueNbrs q ns queue visited parent).2.1,
      x ∈ visited ∨ x ∈ (enqueueNbrs q ns queue visited parent).1 := by
  intro ns
  induction ns with
  | nil => intro queue visited parent x hx; exact Or.inl (by simpa [enqueueNbrs] using hx)
  | cons n ns ih =>
    intro queue visited parent x hx
    rw [enqueueNbrs] at hx ⊢
    by_cases hv : n ∈ visited
    · rw [if_pos hv] at hx ⊢; exact ih queue visited parent x hx
    · rw [if_neg hv] at hx ⊢
      rcases ih _ _ _ x hx with h | h
      · rcases List.mem_cons.mp h with rfl | h'
        · refine Or.inr (enqueueNbrs_queue_keep q ns _ _ _ x ?_)
          exact List.mem_append_right _ (List.mem_cons_self _ _)
        · exact Or.inl h'
      · exact Or.inr h

/-! ### Parent-chain stability and the soundness invariant -/

theorem pLookup_cons_ne (parent : List (String × String)) (n v x : String)
    (h : x ≠ n) : pLookup ((n, v) :: parent) x = pLookup parent x := by
  rw [pLookup, if_neg (fun hh => h hh.symm)]

theorem upChain_cons_parent (conns : Conns) (n v : String)
    (parent : List (String × String)) :
    ∀ c : List String, n ∉ c → UpChain parent conns c →
      UpChain ((n, v) :: parent) conns c := by
  intro c
  induction c with
  | nil => intro _ h; exact h.elim
  | cons x t ih =>
    intro hn h
    have hxn : x ≠ n := fun he => hn (he ▸ List.mem_cons_self _ _)
    cases t with
    | nil =>
      simp only [UpChain] at h ⊢
      rw [pLookup_cons_ne _ _ _ _ hxn, h]
    | cons y rest =>
      simp only [UpChain] at h ⊢
      refine ⟨?_, h.2.1, ih (fun hm => hn (List.mem_cons_of_mem _ hm)) h.2.2⟩
      rw [pLookup_cons_ne _ _ _ _ hxn, h.1]

theorem enqueueNbrs_visitedOK (conns : Conns) (s q : String) :
    ∀ (ns queue visited : List String) (parent : List (String × String)),
    (∀ n ∈ ns, n ∈ lookupD conns q) →
    q ∈ visited →
    VisitedOK conns parent s visited →
    VisitedOK conns (enqueueNbrs q ns queue visited parent).2.2 s
      (enqueueNbrs q ns queue visited parent).2.1 := by
  intro ns
  induction ns with
  | nil =>
    intro queue visited parent _ _ hOK
    simpa [enqueueNbrs] using hOK
  | cons n ns ih =>
    intro queue visited parent hns hq hOK
    rw [enqueueNbrs]
    by_cases hv : n ∈ visited
    · rw [if_pos hv]
      exact ih queue visited parent (fun m hm => hns m (List.mem_cons_of_mem _ hm)) hq hOK
    · rw [if_neg hv]
      refine ih _ _ _ (fun m hm => hns m (List.mem_cons_of_mem _ hm))
        (List.mem_cons_of_mem _ hq) ?_
      intro x hx
      rcases List.mem_cons.mp hx with rfl | hxv
      · obtain ⟨c, hup, hhead, hlast, hnd, hmem⟩ := hOK q hq
        have hnc : x ∉ c := fun hm => hv (hmem x hm)
        refine ⟨x :: c, ?_, rfl, ?_, List.nodup_cons.mpr ⟨hnc, hnd⟩,
          fun y hy => ?_⟩
        · cases c with
          | nil => cases hhead
          | cons z t =>
            have hz : z = q := by simpa using hhead
            rw [hz] at hup hnc
            simp only [UpChain, hz]
            refine ⟨?_, hns x (List.mem_cons_self _ _),
              upChain_cons_parent conns x q parent _ hnc hup⟩
            rw [pLookup, if_pos rfl]
        · cases c with
          | nil => cases hhead
          | cons z t => rw [List.getLast?_cons_cons]; exact hlast
        · rcases List.mem_cons.mp hy with rfl | hyc
          · exact List.mem_cons_self _ _
          · exact List.mem_cons_of_mem _ (hmem y hyc)
      · obtain ⟨c, hup, hhead, hlast, hnd, hmem⟩ := hOK x hxv
        have hnc : n ∉ c := fun hm => hv (hmem n hm)
        exact ⟨c, upChain_cons_parent conns n q parent c hnc hup, hhead, hlast, hnd,
          fun y hy => List.mem_cons_of_mem _ (hmem y hy)⟩

/-! ### bfs completeness: an exhausted queue means the end is unreachable -/

theorem bfsLoop_exhausted_closed (conns : Conns) (endRoom : String) :
    ∀ (fuel : Nat) (queue visited : List String) (parent : List (String × String)),
    bfsLoop conns endRoom fuel queue visited parent = .exhausted →
    (∀ x ∈ queue, x ∈ visited) →
    (∀ a ∈ visited, a ∈ queue ∨ ∀ b ∈ lookupD conns a, b ∈ visited) →
    (∀ a ∈ visited, a ∈ queue ∨ a ≠ endRoom) →
    ∃ W : List String, (∀ x ∈ visited, x ∈ W)
      ∧ ∀ a ∈ W, (∀ b ∈ lookupD conns a, b ∈ W) ∧ a ≠ endRoom := by
  intro fuel
  induction fuel with
  | zero =>
    intro queue visited parent h
    simp [bfsLoop] at h
  | succ fuel ih =>
    intro queue visited parent h hI1 hI2 hI3
    match queue with
    | [] =>
      refine ⟨visited, fun x hx => hx, fun a ha => ?_⟩
      refine ⟨(hI2 a ha).resolve_left (by simp), (hI3 a ha).resolve_left (by simp)⟩
    | q :: rest =>
      rw [bfsLoop] at h
      by_cases hq : q = endRoom
      · simp [hq] at h
      · rw [if_neg hq] at h
        have hqv : q ∈ visited := hI1 q (List.mem_cons_self _ _)
        refine ih (enqueueNbrs q (lookupD conns q) rest visited parent).1
          (enqueueNbrs q (lookupD conns q) rest visited parent).2.1
          (enqueueNbrs q (lookupD conns q) rest visited parent).2.2 h
          ?_ ?_ ?_
          |>.imp fun W hW =>
            ⟨fun x hx => hW.1 x (enqueueNbrs_visited_grow q _ rest visited parent x hx),
             hW.2⟩
        · intro x hx
          rcases enqueueNbrs_queue_src q (lookupD conns q) rest visited parent x hx
            with h' | h'
          · exact enqueueNbrs_visited_grow q _ rest visited parent x
              (hI1 x (List.mem_cons_of_mem _ h'))
          · exact h'
        · intro a ha
          rcases enqueueNbrs_new_in_queue q (lookupD conns q) rest visited parent a ha
            with hav | haq
          · rcases hI2 a hav with hmem | hcl
            · rcases List.mem_cons.mp hmem with rfl | hrest
              · exact Or.inr fun b hb =>
                  enqueueNbrs_ns_visited a (lookupD conns a) rest visited parent b hb
              · exact Or.inl (enqueueNbrs_queue_keep q _ rest visited parent a hrest)
            · exact Or.inr fun b hb =>
                enqueueNbrs_visited_grow q _ rest visited parent b (hcl b hb)
          · exact Or.inl haq
        · intro a ha
          rcases enqueueNbrs_new_in_queue q (lookupD conns q) rest visited parent a ha
            with hav | haq
          · rcases hI3 a hav with hmem | hne
            · rcases List.mem_cons.mp hmem with rfl | hrest
              · exact Or.inr hq
              · exact Or.inl (enqueueNbrs_queue_keep q _ rest visited parent a hrest)
            · exact Or.inr hne
          · exact Or.inl haq

theorem walk_closed (conns : Conns) (W : List String)
    (hcl : ∀ a ∈ W, ∀ b ∈ lookupD conns a, b ∈ W) :
    ∀ p : List String, IsWalk conns p →
      ∀ x, p.head? = some x → x ∈ W → ∀ y, p.getLast? = some y → y ∈ W := by
  intro p
  induction p with
  | nil => intro _ x hx; cases hx
  | cons a t ih =>
    cases t with
    | nil =>
      intro _ x hx hxW y hy
      have hx' : x = a := by simpa using hx.symm
      have hy' : y = a := by simpa using hy.symm
      rw [hy', ← hx']
      exact hxW
    | cons b t' =>
      intro hw x hx hxW y hy
      simp only [IsWalk] at hw
      have hx' : a = x := by simpa using hx
      have hbW : b ∈ W := hcl x (hx' ▸ hxW) b (hx' ▸ hw.1)
      rw [List.getLast?_cons_cons] at hy
      exact ih hw.2 b rfl hbW y hy

theorem bfs_none_unreach (conns : Conns) (s e : String)
    (h : bfs conns s e = none) : ¬ Reachable conns s e := by
  rintro ⟨p, hp⟩
  rw [bfs] at h
  cases hrun : bfsLoop conns e (bfsFuel conns) [s] [s] [] with
  | found p' => rw [hrun] at h; cases h
  | fuelOut => exact bfs_run_no_fuelOut conns s e hrun
  | exhausted =>
    obtain ⟨W, hsub, hW⟩ := bfsLoop_exhausted_closed conns e (bfsFuel conns)
      [s] [s] [] hrun (fun x hx => hx)
      (fun a ha => Or.inl ha) (fun a ha => Or.inl ha)
    have hsW : s ∈ W := hsub s (List.mem_cons_self _ _)
    have heW : e ∈ W :=
      walk_closed conns W (fun a ha => (hW a ha).1) p hp.2.2 s hp.1 hsW e hp.2.1
    exact (hW e heW).2 rfl

/-! ### bfs soundness: a found path really joins start and end -/

theorem rebuild_empty (parent : List (String × String)) :
    ∀ (fuel : Nat) (acc : List String), rebuild parent fuel "" acc = acc := by
  intro fuel acc
  cases fuel with
  | zero => rfl
  | succ f => rw [rebuild, if_pos rfl]

theorem rebuild_chain (parent : List (String × String)) (conns : Conns) :
    ∀ (c : List String) (fuel : Nat) (acc : List String) (x : String),
    UpChain parent conns c → c.head? = some x → "" ∉ c → c.length ≤ fuel →
    rebuild parent fuel x acc = c.reverse ++ acc := by
  intro c
  induction c with
  | nil => intro _ _ _ h; exact h.elim
  | cons z t ih =>
    intro fuel acc x hup hhead hne hlen
    have hzx : z = x := by simpa using hhead
    subst hzx
    have hxe : z ≠ "" := fun h => hne (h ▸ List.mem_cons_self _ _)
    cases fuel with
    | zero => simp at hlen
    | succ f =>
      rw [rebuild, if_neg hxe]
      cases t with
      | nil =>
        simp only [UpChain] at hup
        rw [hup, rebuild_empty]
        simp
      | cons y rest =>
        simp only [UpChain] at hup
        rw [hup.1]
        have hrec := ih f (z :: acc) y hup.2.2 rfl
          (fun h => hne (List.mem_cons_of_mem _ h))
          (by simp only [List.length_cons] at hlen ⊢; omega)
        rw [hrec]
        simp

theorem walk_append_one (conns : Conns) :
    ∀ (w : List String) (y x : String), IsWalk conns w → w.getLast? = some y →
      x ∈ lookupD conns y → IsWalk conns (w ++ [x]) := by
  intro w
  induction w with
  | nil => intro y x _ hy; cases hy
  | cons a t ih =>
    cases t with
    | nil =>
      intro y x _ hy hx
      have hya : y = a := by simpa using hy.symm
      subst hya
      exact ⟨hx, trivial⟩
    | cons b t' =>
      intro y x hw hy hx
      simp only [IsWalk] at hw
      rw [List.getLast?_cons_cons] at hy
      exact ⟨hw.1, ih y x hw.2 hy hx⟩

theorem upChain_reverse_walk (parent : List (String × String)) (conns : Conns) :
    ∀ c : List String, UpChain parent conns c → IsWalk conns c.reverse := by
  intro c
  induction c with
  | nil => intro h; exact h.elim
  | cons x t ih =>
    cases t with
    | nil => intro _; trivial
    | cons y rest =>
      intro hup
      simp only [UpChain] at hup
      rw [List.reverse_cons]
      refine walk_append_one conns _ y x (ih hup.2.2) ?_ hup.2.1
      rw [List.getLast?_reverse]
      rfl

theorem nodup_subset_length : ∀ (l₁ l₂ : List String), l₁.Nodup →
    (∀ x ∈ l₁, x ∈ l₂) → l₁.length ≤ l₂.length := by
  intro l₁
  induction l₁ with
  | nil => intro l₂ _ _; simp
  | cons x t ih =>
    intro l₂ hnd hsub
    have hx : x ∈ l₂ := hsub x (List.mem_cons_self _ _)
    have hsub' : ∀ y ∈ t, y ∈ l₂.erase x := by
      intro y hy
      have hyx : y ≠ x := fun h => (List.nodup_cons.mp hnd).1 (h ▸ hy)
      exact (List.mem_erase_of_ne hyx).mpr (hsub y (List.mem_cons_of_mem _ hy))
    have := ih (l₂.erase x) (List.nodup_cons.mp hnd).2 hsub'
    have herase := List.length_erase_of_mem hx
    have hpos : 1 ≤ l₂.length := List.length_pos.mpr (fun h => by simp [h] at hx)
    simp only [List.length_cons]
    omega

theorem lookupD_cases (conns : Conns) (k : String) :
    lookupD conns k = [] ∨ ∃ pr ∈ conns, lookupD conns k = pr.2 := by
  induction conns with
  | nil => exact Or.inl rfl
  | cons e rest ih =>
    rw [lookupD]
    by_cases h : e.1 = k
    · exact Or.inr ⟨e, List.mem_cons_self _ _, by rw [if_pos h]⟩
    · rw [if_neg h]
      rcases ih with h' | ⟨pr, hpr, h'⟩
      · exact Or.inl h'
      · exact Or.inr ⟨pr, List.mem_cons_of_mem _ hpr, h'⟩

theorem no_empty_lookupD (conns : Conns) (hv : ∀ pr ∈ conns, "" ∉ pr.2)
    (k : String) : "" ∉ lookupD conns k := by
  rcases lookupD_cases conns k with h | ⟨pr, hpr, h⟩
  · rw [h]; simp
  · rw [h]; exact hv pr hpr

theorem bfsLoop_found_sound (conns : Conns) (endRoom s : String) :
    ∀ (fuel : Nat) (queue visited : List String) (parent : List (String × String))
      (p : List String),
    bfsLoop conns endRoom fuel queue visited parent = .found p →
    (∀ x ∈ queue, x ∈ visited) →
    (∀ x ∈ visited, x ≠ "") →
    (∀ pr ∈ conns, "" ∉ pr.2) →
    VisitedOK conns parent s visited →
    p.head? = some s ∧ p.getLast? = some endRoom ∧ IsWalk conns p
      ∧ (s ≠ endRoom → 2 ≤ p.length) := by
  intro fuel
  induction fuel with
  | zero => intro queue visited parent p h; simp [bfsLoop] at h
  | succ fuel ih =>
    intro queue visited parent p h hI1 hne hv hOK
    match queue with
    | [] => simp [bfsLoop] at h
    | q :: rest =>
      rw [bfsLoop] at h
      by_cases hq : q = endRoom
      · rw [if_pos hq] at h
        have hp : p = rebuild parent (visited.length + 1) endRoom [] := by
          cases h; rfl
        have hev : endRoom ∈ visited := hq ▸ hI1 q (List.mem_cons_self _ _)
        obtain ⟨c, hup, hhead, hlast, hnd, hmem⟩ := hOK endRoom hev
        have hcne : "" ∉ c := fun hm => hne "" (hmem "" hm) rfl
        have hclen : c.length ≤ visited.length + 1 := by
          have := nodup_subset_length c visited hnd hmem
          omega
        have hrw : p = c.reverse := by
          rw [hp, rebuild_chain parent conns c (visited.length + 1) [] endRoom
            hup hhead hcne hclen]
          simp
        subst hrw
        refine ⟨?_, ?_, upChain_reverse_walk parent conns c hup, ?_⟩
        · rw [List.head?_reverse]; exact hlast
        · rw [List.getLast?_reverse]; exact hhead
        · intro hse
          match c, hhead, hlast with
          | [z], hhead, hlast =>
            have h1 : z = endRoom := by simpa using hhead
            have h2 : z = s := by simpa using hlast
            exact absurd (h2.symm.trans h1) hse
          | z :: y :: t, _, _ => simp
      · rw [if_neg hq] at h
        have hqv : q ∈ visited := hI1 q (List.mem_cons_self _ _)
        refine ih (enqueueNbrs q (lookupD conns q) rest visited parent).1
          (enqueueNbrs q (lookupD conns q) rest visited parent).2.1
          (enqueueNbrs q (lookupD conns q) rest visited parent).2.2 p h
          ?_ ?_ hv ?_
        · intro x hx
          rcases enqueueNbrs_queue_src q (lookupD conns q) rest visited parent x hx
            with h' | h'
          · exact enqueueNbrs_visited_grow q _ rest visited parent x
              (hI1 x (List.mem_cons_of_mem _ h'))
          · exact h'
        · intro x hx
          rcases enqueueNbrs_visited_src q (lookupD conns q) rest visited parent x hx
            with h' | h'
          · exact hne x h'
          · exact fun he => no_empty_lookupD conns hv q (he ▸ h')
        · exact enqueueNbrs_visitedOK conns s q (lookupD conns q) rest visited parent
            (fun n hn => hn) hqv hOK

theorem bfs_some_sound (conns : Conns) (s e : String) (hs : s ≠ "")
    (hv : ∀ pr ∈ conns, "" ∉ pr.2) (p : List String)
    (h : bfs conns s e = some p) :
    IsPathFrom conns s e p ∧ (s ≠ e → 2 ≤ p.length) := by
  rw [bfs] at h
  cases hrun : bfsLoop conns e (bfsFuel conns) [s] [s] [] with
  | exhausted => rw [hrun] at h; cases h
  | fuelOut => rw [hrun] at h; cases h
  | found p' =>
    rw [hrun] at h
    have hp : p' = p := by cases h; rfl
    subst hp
    have hOK0 : VisitedOK conns [] s [s] := by
      intro x hx
      have hxs : x = s := by simpa using hx
      subst hxs
      exact ⟨[x], rfl, rfl, rfl, List.nodup_singleton _, fun y hy => hy⟩
    have hmain := bfsLoop_found_sound conns e s (bfsFuel conns) [s] [s] [] p' hrun
      (fun x hx => hx) (fun x hx => by simpa using (by simpa using hx : x = s) ▸ hs)
      hv hOK0
    exact ⟨⟨hmain.1, hmain.2.1, hmain.2.2.1⟩, hmain.2.2.2⟩

/-! ### The outer search loop: the directed-edge count strictly decreases -/

theorem length_filter_ne_lt (b : String) : ∀ l : List String, b ∈ l →
    (l.filter (fun r => decide (r ≠ b))).length < l.length := by
  intro l
  induction l with
  | nil => intro h; cases h
  | cons a t ih =>
    intro hb
    by_cases hab : a = b
    · subst hab
      have hflt : (a :: t).filter (fun r => decide (r ≠ a))
          = t.filter (fun r => decide (r ≠ a)) := by
        simp [List.filter_cons]
      rw [hflt]
      have := List.length_filter_le (fun r => decide (r ≠ a)) t
      simp only [List.length_cons]
      omega
    · have hb' : b ∈ t := by
        rcases List.mem_cons.mp hb with h | h
        · exact absurd h.symm hab
        · exact h
      have h1 : (decide (a ≠ b)) = true := by simpa using hab
      simp only [List.filter_cons, h1, if_true, List.length_cons]
      exact Nat.succ_lt_succ (ih hb')

theorem totalEdges_alSet_remove (k b : String) : ∀ conns : Conns,
    totalEdges (alSet conns k (removeEdge (lookupD conns k) b))
      + (if b ∈ lookupD conns k then 1 else 0) ≤ totalEdges conns := by
  intro conns
  induction conns with
  | nil => simp [lookupD, removeEdge, alSet, totalEdges]
  | cons e rest ih =>
    by_cases h : e.1 = k
    · have hl : lookupD (e :: rest) k = e.2 := by rw [lookupD, if_pos h]
      have ha : alSet (e :: rest) k (removeEdge (lookupD (e :: rest) k) b)
          = (k, removeEdge (lookupD (e :: rest) k) b) :: rest := by
        match e with
        | (k', v') => rw [alSet, if_pos h]
      rw [ha, hl]
      show (removeEdge e.2 b).length + totalEdges rest + _ ≤ e.2.length + totalEdges rest
      by_cases hb : b ∈ e.2
      · rw [if_pos hb]
        have := length_filter_ne_lt b e.2 hb
        rw [removeEdge]
        omega
      · rw [if_neg hb]
        have := List.length_filter_le (fun r => decide (r ≠ b)) e.2
        rw [removeEdge]
        omega
    · have hl : lookupD (e :: rest) k = lookupD rest k := by rw [lookupD, if_neg h]
      have ha : alSet (e :: rest) k (removeEdge (lookupD (e :: rest) k) b)
          = e :: alSet rest k (removeEdge (lookupD rest k) b) := by
        match e with
        | (k', v') =>
          rw [hl, alSet, if_neg h]
      rw [ha, hl]
      show e.2.length + totalEdges (alSet rest k (removeEdge (lookupD rest k) b)) + _
        ≤ e.2.length + totalEdges rest
      omega

theorem totalEdges_removePathEdges_le : ∀ (path : List String) (conns : Conns),
    totalEdges (removePathEdges conns path) ≤ totalEdges conns := by
  intro path
  induction path with
  | nil => intro conns; exact le_refl _
  | cons a t ih =>
    intro conns
    cases t with
    | nil => simp [removePathEdges]
    | cons b rest =>
      rw [removePathEdges]
      refine le_trans (ih _) ?_
      have := totalEdges_alSet_remove a b conns
      omega

theorem totalEdges_removePathEdges_lt (conns : Conns) (a b : String)
    (rest : List String) (hb : b ∈ lookupD conns a) :
    totalEdges (removePathEdges conns (a :: b :: rest)) < totalEdges conns := by
  rw [removePathEdges]
  have h1 := totalEdges_removePathEdges_le (b :: rest)
    (alSet conns a (removeEdge (lookupD conns a) b))
  have h2 := totalEdges_alSet_remove a b conns
  rw [if_pos hb] at h2
  omega

theorem alSet_mem (k : String) (v : List String) :
    ∀ (conns : Conns) (pr : String × List String), pr ∈ alSet conns k v →
      pr ∈ conns ∨ pr = (k, v) := by
  intro conns
  induction conns with
  | nil =>
    intro pr hpr
    rw [alSet] at hpr
    exact Or.inr (by simpa using hpr)
  | cons e rest ih =>
    intro pr hpr
    by_cases h : e.1 = k
    · have ha : alSet (e :: rest) k v = (k, v) :: rest := by
        match e with
        | (k', v') => rw [alSet, if_pos h]
      rw [ha] at hpr
      rcases List.mem_cons.mp hpr with rfl | h'
      · exact Or.inr rfl
      · exact Or.inl (List.mem_cons_of_mem _ h')
    · have ha : alSet (e :: rest) k v = e :: alSet rest k v := by
        match e with
        | (k', v') => rw [alSet, if_neg h]
      rw [ha] at hpr
      rcases List.mem_cons.mp hpr with rfl | h'
      · exact Or.inl (List.mem_cons_self _ _)
      · rcases ih pr h' with h'' | h''
        · exact Or.inl (List.mem_cons_of_mem _ h'')
        · exact Or.inr h''

theorem removePathEdges_no_empty : ∀ (path : List String) (conns : Conns),
    (∀ pr ∈ conns, "" ∉ pr.2) → ∀ pr ∈ removePathEdges conns path, "" ∉ pr.2 := by
  intro path
  induction path with
  | nil => intro conns hv; exact hv
  | cons a t ih =>
    intro conns hv
    cases t with
    | nil => simpa [removePathEdges] using hv
    | cons b rest =>
      rw [removePathEdges]
      refine ih _ ?_
      intro pr hpr
      rcases alSet_mem a (removeEdge (lookupD conns a) b) conns pr hpr with h | h
      · exact hv pr h
      · rw [h]
        intro hmem
        exact no_empty_lookupD conns hv a (List.mem_of_mem_filter hmem)

/-! ### The outer search loop: full characterization -/

theorem findRoutesLoop_spec (s e : String) (hs : s ≠ "") (hse : s ≠ e) :
    ∀ (fuel : Nat) (conns : Conns) (acc : List (List String)),
    (∀ pr ∈ conns, "" ∉ pr.2) →
    totalEdges conns < fuel →
    (¬ Reachable conns s e →
      findRoutesLoop s e fuel conns acc = if acc = [] then .noRouteFound else .paths acc)
    ∧ (Reachable conns s e →
      ∃ ps, findRoutesLoop s e fuel conns acc = .paths ps ∧ ps ≠ []) := by
  intro fuel
  induction fuel with
  | zero => intro conns acc _ hlt; omega
  | succ fuel ih =>
    intro conns acc hv hlt
    cases hbfs : bfs conns s e with
    | none =>
      constructor
      · intro _
        simp only [findRoutesLoop, hbfs]
      · intro hre
        exact absurd hre (bfs_none_unreach conns s e hbfs)
    | some path =>
      have hsound := bfs_some_sound conns s e hs hv path hbfs
      have hlen := hsound.2 hse
      match path, hsound, hlen with
      | z :: y :: rest, hsound, _ =>
        have hy : y ∈ lookupD conns z := hsound.1.2.2.1
        have hdec := totalEdges_removePathEdges_lt conns z y rest hy
        have hv' := removePathEdges_no_empty (z :: y :: rest) conns hv
        have hih := ih (removePathEdges conns (z :: y :: rest))
          (acc ++ [z :: y :: rest]) hv' (by omega)
        constructor
        · intro hnr
          exact absurd ⟨z :: y :: rest, hsound.1⟩ hnr
        · intro _
          simp only [findRoutesLoop, hbfs]
          by_cases hr' : Reachable (removePathEdges conns (z :: y :: rest)) s e
          · exact hih.2 hr'
          · refine ⟨acc ++ [z :: y :: rest], ?_, by simp⟩
            rw [hih.1 hr', if_neg (by simp)]

/-! ### C7: the error contract of FindMultiplePaths -/

theorem copyConns_eq (c : Conns) : copyConns c = c := by
  simp [copyConns]

/-- C7 fails as stated on two boundary inputs.  First, a graph whose
flagged start room is named by the empty string: the resolved name
collides with the unset sentinel of the Go scan, so the code reports a
missing endpoint even though a start room is flagged, an end room is
flagged, and a route joins them.  Second, a graph whose single room is
flagged both start and end: both endpoints resolve and a route exists
(the one-room route), yet the search loop never terminates, because bfs
keeps finding the single-room path and removePathEdges removes nothing
from it; the code returns neither error nor a route list. -/
theorem C7_error_contract_counterexample :
    FindMultiplePaths ⟨[⟨"", 0, 0, true, false⟩, ⟨"e", 0, 0, false, true⟩],
        [("", ["e"]), ("e", [""])]⟩ = .missingEndpoint
    ∧ (⟨"", 0, 0, true, false⟩ : Room).isStart = true
    ∧ (⟨"e", 0, 0, false, true⟩ : Room).isEnd = true
    ∧ IsPathFrom [("", ["e"]), ("e", [""])] "" "e" ["", "e"]
    ∧ FindMultiplePaths ⟨[⟨"s", 0, 0, true, true⟩], [("s", [])]⟩ = .diverge
    ∧ IsPathFrom [("s", [])] "s" "s" ["s"] := by
  refine ⟨by decide, rfl, rfl, ⟨rfl, rfl, ?_⟩, by decide, rfl, rfl, trivial⟩
  simp only [IsWalk]
  exact ⟨by decide, trivial⟩

/-- C7 as amended by the counterexample: on graphs whose rooms all carry
names other than the empty string (so no flagged room collides with the
unset sentinel), whose neighbor lists never mention the empty name, with
exactly one flagged start and one flagged end, and whose resolved start
and end differ (ruling out the non-terminating one-room case),
FindMultiplePaths errs in exactly two cases: it reports a missing
endpoint when no room is flagged start or none is flagged end, reports
that no route was found exactly when the end is unreachable from the
start, and otherwise returns a non-empty route list. -/
theorem C7_error_contract :
    (∀ g : Graph,
      ((∀ r ∈ g.rooms, r.isStart = false) ∨ (∀ r ∈ g.rooms, r.isEnd = false)) →
      FindMultiplePaths g = .missingEndpoint)
    ∧ (∀ (g : Graph) (S E : Room),
      S ∈ g.rooms → S.isStart = true → (∀ r ∈ g.rooms, r.isStart = true → r = S) →
      E ∈ g.rooms → E.isEnd = true → (∀ r ∈ g.rooms, r.isEnd = true → r = E) →
      (∀ r ∈ g.rooms, r.name ≠ "") →
      (∀ pr ∈ g.neighbors, "" ∉ pr.2) →
      S.name ≠ E.name →
      (FindMultiplePaths g = .noRouteFound ↔
        ¬ Reachable g.neighbors S.name E.name)
      ∧ (Reachable g.neighbors S.name E.name →
          ∃ ps, FindMultiplePaths g = .paths ps ∧ ps ≠ [])) := by
  constructor
  · intro g hflag
    have h1 : (resolveStartEnd g.rooms).1 = "" ∨ (resolveStartEnd g.rooms).2 = "" := by
      rcases hflag with h | h
      · left
        rw [resolveStartEnd, resolve_components]
        exact foldl_flag_stable (fun r => r.isStart) g.rooms ""
          (fun r hr hf => by
            have hf' : r.isStart = true := hf
            rw [h r hr] at hf'; cases hf')
      · right
        rw [resolveStartEnd, resolve_components]
        exact foldl_flag_stable (fun r => r.isEnd) g.rooms ""
          (fun r hr hf => by
            have hf' : r.isEnd = true := hf
            rw [h r hr] at hf'; cases hf')
    rcases h1 with h | h <;> simp [FindMultiplePaths, h]
  · intro g S E hS hSs hSonly hE hEe hEonly hnames hv hSE
    have hres : resolveStartEnd g.rooms = (S.name, E.name) :=
      resolveStartEnd_unique g.rooms S E hS hSs hSonly hE hEe hEonly
    have hSne : S.name ≠ "" := hnames S hS
    have hEne : E.name ≠ "" := hnames E hE
    have hfm : FindMultiplePaths g
        = findRoutesLoop S.name E.name (totalEdges g.neighbors + 1) g.neighbors [] := by
      simp only [FindMultiplePaths, hres, copyConns_eq]
      simp [hSne, hEne]
    have hmain := findRoutesLoop_spec S.name E.name hSne hSE
      (totalEdges g.neighbors + 1) g.neighbors [] hv (by omega)
    refine ⟨⟨?_, ?_⟩, ?_⟩
    · intro hnf hre
      obtain ⟨ps, hps, _⟩ := hmain.2 hre
      rw [hfm, hps] at hnf
      cases hnf
    · intro hnr
      rw [hfm, hmain.1 hnr, if_pos rfl]
    · intro hre
      obtain ⟨ps, hps, hpsne⟩ := hmain.2 hre
      exact ⟨ps, by rw [hfm, hps], hpsne⟩

theorem C7_error_contract_witness :
    FindMultiplePaths ⟨[⟨"s", 0, 0, true, false⟩], []⟩ = .missingEndpoint
    ∧ ∃ ps, FindMultiplePaths ⟨[⟨"s", 0, 0, true, false⟩, ⟨"t", 0, 0, false, true⟩],
        [("s", ["t"]), ("t", ["s"])]⟩ = .paths ps ∧ ps ≠ [] := by
  constructor
  · exact C7_error_contract.1 ⟨[⟨"s", 0, 0, true, false⟩], []⟩ (Or.inr (by decide))
  · exact (C7_error_contract.2
        ⟨[⟨"s", 0, 0, true, false⟩, ⟨"t", 0, 0, false, true⟩],
          [("s", ["t"]), ("t", ["s"])]⟩
        ⟨"s", 0, 0, true, false⟩ ⟨"t", 0, 0, false, true⟩
        (by decide) (by decide) (by decide) (by decide) (by decide) (by decide)
        (by decide) (by decide) (by decide)).2
      ⟨["s", "t"], rfl, rfl, by simp only [IsWalk]; exact ⟨by decide, trivial⟩⟩

end LemIn
